import Mathlib

/-!
Verification of the MusicOrganizer metadata pipeline.

This file gives a shallow embedding of the MusicOrganizer repository
(`MusicOrganizer/utils.py` and `MusicOrganizer/Organizer.py`) and proves
properties of the embedded functions.

Modelling conventions:
* Python strings are `String` / `List Char`; nullable cells (pandas NaN /
  `None`) are `Option String`.
* The regular expression used by `remove_websites_and_tags` is hand-compiled
  into an executable backtracking matcher with Python `re` semantics
  (leftmost match, greedy quantifiers, ordered alternation).
* Python's Unicode `\w` class is modelled as ASCII alphanumerics,
  underscore, and all non-ASCII code points; `str.strip` strips the ASCII
  whitespace characters.  Case-insensitive matching lowers ASCII letters
  only.  These approximations do not affect any proved property.
-/

/-- ASCII space, written via its code point to keep character literals simple. -/
def spaceChar : Char := Char.ofNat 32

/-- Python whitespace (`\s`, `str.strip`), restricted to the ASCII range. -/
def wsChar (c : Char) : Bool :=
  c = spaceChar || c = Char.ofNat 9 || c = Char.ofNat 10 ||
  c = Char.ofNat 13 || c = Char.ofNat 11 || c = Char.ofNat 12

/-- Python `\w`: modelled as ASCII alphanumerics, underscore and every
non-ASCII code point. -/
def isWordChar (c : Char) : Bool :=
  c.isAlphanum || c = Char.ofNat 95 || decide (128 ≤ c.toNat)

/-- Character class `[\w@\-%\+.~#?&//=]` (the part of a domain before the
dot) from the ad-text pattern in `utils.remove_websites_and_tags`. -/
def tokenClass (c : Char) : Bool :=
  isWordChar c || c = Char.ofNat 64 || c = Char.ofNat 45 || c = Char.ofNat 37 ||
  c = Char.ofNat 43 || c = Char.ofNat 46 || c = Char.ofNat 126 || c = Char.ofNat 35 ||
  c = Char.ofNat 63 || c = Char.ofNat 38 || c = Char.ofNat 47 || c = Char.ofNat 61

/-- Character class `[\w@\-:%\+.~#?&//=]` (domain tail / `@handle` body). -/
def tailClass (c : Char) : Bool :=
  isWordChar c || c = Char.ofNat 64 || c = Char.ofNat 45 || c = Char.ofNat 58 ||
  c = Char.ofNat 37 || c = Char.ofNat 43 || c = Char.ofNat 46 || c = Char.ofNat 126 ||
  c = Char.ofNat 35 || c = Char.ofNat 63 || c = Char.ofNat 38 || c = Char.ofNat 47 ||
  c = Char.ofNat 61

/-- Character class `[-@:%_\+.~#?&//=\s\(\)\[\]\*^$!{}<>\"\']` (bracket and
punctuation noise around the matched link). -/
def noiseClass (c : Char) : Bool :=
  wsChar c ||
  c = Char.ofNat 45 || c = Char.ofNat 64 || c = Char.ofNat 58 || c = Char.ofNat 37 ||
  c = Char.ofNat 95 || c = Char.ofNat 43 || c = Char.ofNat 46 || c = Char.ofNat 126 ||
  c = Char.ofNat 35 || c = Char.ofNat 63 || c = Char.ofNat 38 || c = Char.ofNat 47 ||
  c = Char.ofNat 61 || c = Char.ofNat 40 || c = Char.ofNat 41 || c = Char.ofNat 91 ||
  c = Char.ofNat 93 || c = Char.ofNat 42 || c = Char.ofNat 94 || c = Char.ofNat 36 ||
  c = Char.ofNat 33 || c = Char.ofNat 123 || c = Char.ofNat 125 || c = Char.ofNat 60 ||
  c = Char.ofNat 62 || c = Char.ofNat 34 || c = Char.ofNat 39

/-- Length of the maximal run of `tokenClass` characters. -/
def tokenRun (s : List Char) : Nat := (s.takeWhile tokenClass).length

/-- Length of the maximal run of `tailClass` characters. -/
def tailRun (s : List Char) : Nat := (s.takeWhile tailClass).length

/-- Length of the maximal run of `noiseClass` characters. -/
def noiseRun (s : List Char) : Nat := (s.takeWhile noiseClass).length

/-- Case-insensitive literal match (the literal is given lowercase):
returns the remainder of the input after the literal. -/
def ciLit : List Char → List Char → Option (List Char)
  | [], s => some s
  | _ :: _, [] => none
  | c :: cs, x :: xs => if x.toLower = c then ciLit cs xs else none

/-- First `some` result of `f` over the list, in order (ordered alternation
of a backtracking regex engine). -/
def firstSome : List α → (α → Option β) → Option β
  | [], _ => none
  | a :: t, f =>
    match f a with
    | some b => some b
    | none => firstSome t f

/-- The TLD alternation `(cc|me|ir|in|net|info|org|biz|com|us|pro|ws)`,
in the pattern's order. -/
def tldList : List (List Char) :=
  ["cc", "me", "ir", "in", "net", "info", "org", "biz", "com", "us", "pro", "ws"].map
    String.data

/-- Try to read `\.(cc|...|ws)[\w@\-:%\+.~#?&//=]*` at offset `k` of `s`
(the token part having consumed `k` characters). -/
def checkDot (s : List Char) (k : Nat) : Option (List Char) :=
  match s.drop k with
  | c :: rest =>
    if c = Char.ofNat 46 then
      (firstSome tldList fun t => ciLit t rest).map fun r => r.drop (tailRun r)
    else none
  | [] => none

/-- Greedy `{1,256}` token followed by dot, TLD and tail: try token lengths
from `n` down to `1`, Python's backtracking order. -/
def domTry (s : List Char) : Nat → Option (List Char)
  | 0 => none
  | k + 1 =>
    match checkDot s (k + 1) with
    | some r => some r
    | none => domTry s k

/-- The `@handle` alternative `@[\w@\-:%\+.~#?&//=]{1,256}` (greedy). -/
def handleTry (s : List Char) : Option (List Char) :=
  match s with
  | c :: rest =>
    if c = Char.ofNat 64 then
      let r := min (tailRun rest) 256
      if 1 ≤ r then some (rest.drop r) else none
    else none
  | [] => none

/-- The mandatory core group of the ad-text pattern: a URL-like domain or an
`@handle`.  Returns the remainder after the group. -/
def coreParse (s : List Char) : Option (List Char) :=
  match domTry s (min (tokenRun s) 256) with
  | some r => some r
  | none => handleTry s

/-- `[\s]?` (greedy): the remainders tried, in order. -/
def wsOpts (r : List Char) : List (List Char) :=
  match r with
  | c :: cs => if wsChar c then [cs, r] else [r]
  | [] => [r]

/-- Remainders after the optional label
`(((telegram[\s]?)?(channel)?)|((کانال[\s]?)?(تلگرام)))?`, in Python's
backtracking order. -/
def labelRems (s : List Char) : List (List Char) :=
  let tgOpts : List (List Char) :=
    (match ciLit "telegram".data s with
     | some r => wsOpts r
     | none => []) ++ [s]
  let chOpts : List Char → List (List Char) := fun r =>
    (match ciLit "channel".data r with
     | some r2 => [r2]
     | none => []) ++ [r]
  let kaOpts : List (List Char) :=
    (match ciLit "کانال".data s with
     | some r => wsOpts r
     | none => []) ++ [s]
  let teOpt : List Char → List (List Char) := fun r =>
    match ciLit "تلگرام".data r with
    | some r2 => [r2]
    | none => []
  (tgOpts.flatMap chOpts) ++ (kaOpts.flatMap teOpt) ++ [s]

/-- Remainders after the greedy noise star, longest first. -/
def noiseRems (s : List Char) : List (List Char) :=
  (List.range (noiseRun s + 1)).map fun j => s.drop (noiseRun s - j)

/-- A match of the whole ad-text pattern at the start position of `s`:
label, leading noise, core group, trailing noise.  Returns the remainder
of `s` after the match. -/
def matchAt (s : List Char) : Option (List Char) :=
  firstSome (labelRems s) fun s1 =>
    firstSome (noiseRems s1) fun s2 =>
      (coreParse s2).map fun s3 => s3.drop (noiseRun s3)

/-- `re.sub(pattern, ' ', s)`: scan left to right, replace every match by a
single space.  Fuel-based recursion (`fuel ≥ s.length` suffices). -/
def subF : Nat → List Char → List Char
  | 0, s => s
  | n + 1, s =>
    match matchAt s with
    | some r => spaceChar :: subF n r
    | none =>
      match s with
      | [] => []
      | c :: cs => c :: subF n cs

/-- `re.sub(pattern, ' ', s)` with enough fuel. -/
def reSub (s : List Char) : List Char := subF s.length s

/-- Python `str.strip()` (ASCII whitespace). -/
def pyStrip (l : List Char) : List Char :=
  ((l.dropWhile wsChar).reverse.dropWhile wsChar).reverse

/-- `utils.remove_websites_and_tags`, applied to one cell of the pandas
series: strip the ad-text pattern, trim, map the empty string to null;
null cells stay null. -/
def remove_websites_and_tags (x : Option String) : Option String :=
  match x with
  | none => none
  | some s =>
    let t := pyStrip (reSub s.data)
    if t.isEmpty then none else some (String.mk t)

/-- Case-insensitive substring test helper: does `pat` occur in `hay`
(both already lowercased)? -/
def containsSub : List Char → List Char → Bool
  | [], pat => pat.isEmpty
  | h :: t, pat => pat.isPrefixOf (h :: t) || containsSub t pat

/-- `pd.Series.str.contains(lit, flags=re.IGNORECASE)` for a literal
alternative of the masks in `generate_music_info`. -/
def containsCI (s : String) (pat : String) : Bool :=
  containsSub (s.data.map Char.toLower) (pat.data.map Char.toLower)

/-- `^\d+$` as used inside `.str.contains` (matches iff the whole string is
digits; the Python `$`-before-trailing-newline corner is not modelled). -/
def allDigits (s : String) : Bool := !s.isEmpty && s.data.all Char.isDigit

/-- The genre mask regex `(unknown|^\d+$|\?)` applied to one cell;
null cells are mapped to `False` by `mask_containing_regex`. -/
def maskGenre : Option String → Bool
  | none => false
  | some s => containsCI s "unknown" || allDigits s || s.data.contains (Char.ofNat 63)

/-- The albumartist mask regex `(unknown|various)` applied to one cell. -/
def maskAlbumartist : Option String → Bool
  | none => false
  | some s => containsCI s "unknown" || containsCI s "various"

/-- A character of the Arabic Unicode block `[؀-ۿ]`. -/
def isArabicChar (c : Char) : Bool :=
  decide (1536 ≤ c.toNat) && decide (c.toNat ≤ 1791)

/-- The album mask regex `(unknown|single|music|motion|[؀-ۿ]+)`. -/
def maskAlbum : Option String → Bool
  | none => false
  | some s =>
    containsCI s "unknown" || containsCI s "single" || containsCI s "music" ||
    containsCI s "motion" || s.data.any isArabicChar

/-- `str(x).isnumeric()` on a cell: null cells give `str(nan)`/`str(None)`
which is not numeric; Unicode numerics beyond ASCII digits are modelled as
ASCII digits. -/
def cellIsNumeric : Option String → Bool
  | none => false
  | some s => !s.isEmpty && s.data.all Char.isDigit

/-- `.str.replace(c, '')`: delete every occurrence of the character. -/
def removeAllChar (c : Char) (s : String) : String :=
  String.mk (s.data.filter fun x => x != c)

/-- The promotional marker `\(RFâ„¢\)` stripped from `artist`
(the literal appears mojibake-encoded in the source), lowercase form. -/
def rfMarker : List Char :=
  [Char.ofNat 40, Char.ofNat 114, Char.ofNat 102, Char.ofNat 226,
   Char.ofNat 8222, Char.ofNat 162, Char.ofNat 41]

/-- Remove every (case-insensitive) occurrence of `rfMarker`, left to
right, as `re.sub` with an empty replacement does. -/
def removeMarkerF : Nat → List Char → List Char
  | 0, s => s
  | n + 1, s =>
    match ciLit rfMarker s with
    | some r => removeMarkerF n r
    | none =>
      match s with
      | [] => []
      | c :: cs => c :: removeMarkerF n cs

/-- `.str.replace(r'\(RFâ„¢\)', '', flags=re.IGNORECASE)` on a cell. -/
def stripRFMarker (x : Option String) : Option String :=
  x.map fun s => String.mk (removeMarkerF s.data.length s.data)

/-- `utils.audio_extensions`: the allow-list tuple passed to
`str.endswith`. -/
def audio_extensions : List String :=
  ["3gp", "aa", "aac", "aax", "act", "aiff", "alac", "amr", "ape", "au", "awb",
   "dct", "dss", "dvf", "8svx", "flac", "gsm", "iklax", "ivs", "m4a", "m4b",
   "m4p", "mmf", "mp3", "mpc", "msv", "nmf", "ogg", "oga", "cda", "mogg",
   "opus", "ra", "rm", "raw", "rf64", "sln", "tta", "voc", "vox", "wav",
   "wma", "wv", "webm"]

/-- `str.lower()` (ASCII case folding, see the modelling note). -/
def pyLower (s : String) : String := String.mk (s.data.map Char.toLower)

/-- `str.endswith(post)`. -/
def strEndsWith (s post : String) : Bool := post.data.isSuffixOf s.data

/-- The filter in `get_music_addrs`:
`file.lower().endswith(audio_extensions)` — a raw suffix test against the
tuple, with no dot separator required. -/
def isAudioFileName (file : String) : Bool :=
  audio_extensions.any fun ext => strEndsWith (pyLower file) ext

/-- `get_music_addrs` (cache disabled): walk entries are
`(dirname, filename)` pairs in walk order; keep the audio-named ones and
join them into addresses. -/
def get_music_addrs (walked : List (String × String)) : List String :=
  (walked.filter fun p => isAudioFileName p.2).map fun p => p.1 ++ "/" ++ p.2

/-- One row of the `music_info` table: the columns built in
`generate_music_info` plus any extra top-level keys a later
`music.update(...)` may have added (`extras`, empty elsewhere). -/
structure GRecord where
  file : String
  title : Option String
  artist : Option String
  album : Option String
  albumartist : Option String
  genre : Option String
  date : Option String
  bpm : Option String
  tracknumber : Option String
  discnumber : Option String
  originaldate : Option String
  bitrate : Option String
  length : Option String
  miscellaneous : List (String × String)
  extras : List (String × String)
deriving DecidableEq

/-- Line 154: `musics['date'] =
musics['originaldate'].fillna(musics['date']).str.split('T').str[0]`.
Line 155 (`musics.drop(columns=['originaldate'])`) discards its result, so
`originaldate` is left in place unchanged. -/
def stageDate (m : GRecord) : GRecord :=
  { m with
    date :=
      Option.map (fun s => String.mk (s.data.takeWhile fun c => c ≠ 'T'))
        (match m.originaldate with
         | some v => some v
         | none => m.date) }

/-- Line 158: keep `bpm` only where `str(x).isnumeric()`. -/
def stageBpm (m : GRecord) : GRecord :=
  { m with bpm := if cellIsNumeric m.bpm then m.bpm else none }

/-- Line 159: keep `date` only where it is numeric after removing dashes. -/
def stageDateNumeric (m : GRecord) : GRecord :=
  { m with
    date := if cellIsNumeric (m.date.map (removeAllChar (Char.ofNat 45))) then m.date else none }

/-- Lines 160-162: keep `discnumber` only where it is numeric after
removing slashes. -/
def stageDisc (m : GRecord) : GRecord :=
  { m with
    discnumber :=
      if cellIsNumeric (m.discnumber.map (removeAllChar (Char.ofNat 47))) then m.discnumber
      else none }

/-- Lines 163-165: keep `tracknumber` only where it is numeric after
removing slashes. -/
def stageTrack (m : GRecord) : GRecord :=
  { m with
    tracknumber :=
      if cellIsNumeric (m.tracknumber.map (removeAllChar (Char.ofNat 47))) then m.tracknumber
      else none }

/-- Lines 168-171: null masked genres, then strip ad text. -/
def stageGenre (m : GRecord) : GRecord :=
  { m with genre := remove_websites_and_tags (if maskGenre m.genre then none else m.genre) }

/-- Lines 174-178: null `albumartist` when `album` is null or the mask
matches, then strip ad text. -/
def stageAlbumartist (m : GRecord) : GRecord :=
  { m with
    albumartist :=
      remove_websites_and_tags
        (if m.album.isNone || maskAlbumartist m.albumartist then none else m.albumartist) }

/-- Lines 181-185: null `album` when `albumartist` is null or the mask
matches, then strip ad text. -/
def stageAlbum (m : GRecord) : GRecord :=
  { m with
    album :=
      remove_websites_and_tags
        (if m.albumartist.isNone || maskAlbum m.album then none else m.album) }

/-- Lines 188-191: the `album`/`albumartist` cross-validation second
pass. -/
def crossValidate (m : GRecord) : GRecord :=
  if m.album.isNone || m.albumartist.isNone then
    { m with album := none, albumartist := none }
  else m

/-- Lines 193-194: strip the promotional marker, then ad text, from
`artist`. -/
def stageArtist (m : GRecord) : GRecord :=
  { m with artist := remove_websites_and_tags (stripRFMarker m.artist) }

/-- Line 195: strip ad text from `title`. -/
def stageTitle (m : GRecord) : GRecord :=
  { m with title := remove_websites_and_tags m.title }

/-- The normalization pipeline of `generate_music_info` (lines 153-195),
column by column in source order. -/
def normalizeRec (m : GRecord) : GRecord :=
  stageTitle (stageArtist (crossValidate (stageAlbum (stageAlbumartist (stageGenre
    (stageTrack (stageDisc (stageDateNumeric (stageBpm (stageDate m))))))))))

/-- `_highlighted_rows`: the mask `isnull(artist) | isnull(title)` on one
record. -/
def isHighlighted (m : GRecord) : Bool := m.artist.isNone || m.title.isNone

/-- `_highlighted_rows` over the table: the index labels (= positions,
since both call sites build a fresh RangeIndex) whose mask is true. -/
def highlightedRows (rows : List GRecord) : List Nat :=
  (rows.enum.filter fun p => isHighlighted p.2).map Prod.fst

/-- `musics.loc[idxs]`: select rows by label list, in list order. -/
def selectRows (rows : List GRecord) (idxs : List Nat) : List GRecord :=
  idxs.filterMap fun i => rows.get? i

/-- `musics.drop(idxs)`: the remaining rows, original order. -/
def dropRows (rows : List GRecord) (idxs : List Nat) : List GRecord :=
  (rows.enum.filter fun p => !idxs.contains p.1).map Prod.snd

/-- `_do_highlight` (the reorder; styling is presentation only):
`musics.loc[highlighted].append(musics.drop(highlighted))`. -/
def do_highlight (rows : List GRecord) : List GRecord :=
  selectRows rows (highlightedRows rows) ++ dropRows rows (highlightedRows rows)

/-- `generate_music_info` on the record set read from the files: normalize
every record, then apply the review-flag reordering before persisting. -/
def generate_music_info (rows : List GRecord) : List GRecord :=
  do_highlight (rows.map normalizeRec)

/-- Stand-in for the serialized form of the `miscellaneous` mapping in a
persisted cell (its exact text is never inspected by the pipeline). -/
def serializeMisc (l : List (String × String)) : String :=
  l.foldl (fun acc kv => acc ++ kv.1 ++ "=" ++ kv.2 ++ ";") ""

/-- A persisted record as the `(column, cell)` row written to the table:
the schema of the dict built in `generate_music_info` (in construction
order — `originaldate` included, since the drop on line 155 has no
effect), plus any extra merged keys. -/
def rowOf (m : GRecord) : List (String × Option String) :=
  [("file", some m.file), ("title", m.title), ("artist", m.artist),
   ("album", m.album), ("albumartist", m.albumartist), ("genre", m.genre),
   ("date", m.date), ("bpm", m.bpm), ("tracknumber", m.tracknumber),
   ("discnumber", m.discnumber), ("originaldate", m.originaldate),
   ("bitrate", m.bitrate), ("length", m.length),
   ("miscellaneous", some (serializeMisc m.miscellaneous))] ++
  m.extras.map fun kv => (kv.1, some kv.2)

/-- Association-list lookup (first binding wins, like `dict` access). -/
def assocGet : List (String × α) → String → Option α
  | [], _ => none
  | (k2, v) :: t, k => if k2 = k then some v else assocGet t k

/-- Association-list upsert (replace the first binding, else append). -/
def assocSet : List (String × α) → String → α → List (String × α)
  | [], k, v => [(k, v)]
  | (k2, v2) :: t, k, v => if k2 = k then (k, v) :: t else (k2, v2) :: assocSet t k v

/-- An easy-tag mapping as mutagen exposes it: key to list of values. -/
def TagMap : Type := List (String × List String)

instance : DecidableEq TagMap := by unfold TagMap; infer_instance

/-- Python `dict` equality between the file object's items and the new tag
dict (`music_file_obj == new_tags`): same keys, same values. -/
def tagMapEq (a b : TagMap) : Bool :=
  a.all (fun kv => decide (assocGet b kv.1 = some kv.2)) &&
  b.all (fun kv => decide (assocGet a kv.1 = some kv.2))

/-- Python truthiness of a cell (`None` and `''` are falsy). -/
def truthyCell : Option String → Bool
  | none => false
  | some s => !s.isEmpty

/-- The new tag dict of `apply_tags` step e:
`{k: [v] for k, v in music.items() if k not in (['file', 'miscellaneous'] +
information_columns) and v}`. -/
def newTagsOf (row : List (String × Option String)) : TagMap :=
  row.filterMap fun kv =>
    if kv.1 = "file" || kv.1 = "miscellaneous" || kv.1 = "bitrate" || kv.1 = "length" then none
    else
      match kv.2 with
      | some v => if v.isEmpty then none else some (kv.1, [v])
      | none => none

/-- The new tag dict computed for a record. -/
def newTagsRecord (m : GRecord) : TagMap := newTagsOf (rowOf m)

/-- `music.update(json.loads(music['miscellaneous']))`: set each parsed key
as a top-level entry of the record dict (named columns are overwritten,
unknown keys become extra columns; a `miscellaneous` key would overwrite
the serialized cell itself, which no later step reads). -/
def setNamed (m : GRecord) (k : String) (v : String) : GRecord :=
  if k = "file" then { m with file := v }
  else if k = "title" then { m with title := some v }
  else if k = "artist" then { m with artist := some v }
  else if k = "album" then { m with album := some v }
  else if k = "albumartist" then { m with albumartist := some v }
  else if k = "genre" then { m with genre := some v }
  else if k = "date" then { m with date := some v }
  else if k = "bpm" then { m with bpm := some v }
  else if k = "tracknumber" then { m with tracknumber := some v }
  else if k = "discnumber" then { m with discnumber := some v }
  else if k = "originaldate" then { m with originaldate := some v }
  else if k = "bitrate" then { m with bitrate := some v }
  else if k = "length" then { m with length := some v }
  else if k = "miscellaneous" then m
  else { m with extras := assocSet m.extras k v }

/-- Merge the record's miscellaneous map into its top-level fields. -/
def mergeMisc (m : GRecord) : GRecord :=
  m.miscellaneous.foldl (fun acc kv => setNamed acc kv.1 kv.2) m

/-- The live filesystem as the apply phase sees it: the set of existing
paths and the tag mapping stored on each file. -/
structure FS where
  paths : List String
  tags : List (String × TagMap)
deriving DecidableEq

/-- `os.path.exists`. -/
def fsExists (fs : FS) (p : String) : Bool := fs.paths.contains p

/-- `os.remove` (best effort: removing a missing path is a no-op, like the
swallowed exception). -/
def fsErase (fs : FS) (p : String) : FS :=
  { paths := fs.paths.filter fun q => q != p,
    tags := fs.tags.filter fun kv => kv.1 != p }

/-- The tags stored on a file (`mutagen.File(f, easy=True)` viewed as its
item mapping; a file with no tags is the empty mapping). -/
def fsTagsOf (fs : FS) (p : String) : TagMap := (assocGet fs.tags p).getD []

/-- `Path.rename`: move a path, its tags travelling with it. -/
def fsRename (fs : FS) (a b : String) : FS :=
  { paths := fs.paths.map fun q => if q = a then b else q,
    tags := fs.tags.map fun kv => if kv.1 = a then (b, kv.2) else kv }

/-- `music_file_obj.save()` after clear/update: the file now stores exactly
the new tags. -/
def fsSetTags (fs : FS) (p : String) (t : TagMap) : FS :=
  { fs with tags := assocSet fs.tags p t }

/-- The four permission kinds of the apply phase. -/
inductive PermKind
  | deleted
  | notFound
  | renameError
  | editError
deriving DecidableEq

/-- Observable actions of one `apply_tags` run. -/
inductive AEvent
  | permissionRequest (kind : PermKind) (file : String)
  | removeAttempt (file : String)
  | renamed (fromPath toPath : String)
  | renameFailed (fromPath toPath : String)
  | clearedTags (file : String)
  | wroteTags (file : String) (tags : TagMap)
  | saveFailed (file : String)
  | fatalError (file : String)
deriving DecidableEq

/-- `input('Accept? [n(a)] [y(a)]')`: consume the next interactive answer
(end of input modelled as an empty, denying answer). -/
def askInput (inputs : List String) : String × List String :=
  match inputs with
  | i :: rest => (i, rest)
  | [] => ("", [])

/-- The permission check of `_remove_file_with_permission`: prompt unless
the sticky value is already `na` or `ya`. -/
def resolvePermission (perm : Option String) (inputs : List String) :
    String × List String :=
  match perm with
  | some p => if p = "na" || p = "ya" then (p, inputs) else askInput inputs
  | none => askInput inputs

/-- `permission.startswith('y')`. -/
def permGranted (p : String) : Bool := "y".data.isPrefixOf p.data

/-- `_remove_file_with_permission`: resolve the permission, and on a
granted one attempt `os.remove(file)` (errors swallowed).  Returns the
updated filesystem, the permission string the caller stores back, the
remaining input stream and the emitted events. -/
def remove_file_with_permission (fs : FS) (kind : PermKind) (file : String)
    (perm : Option String) (inputs : List String) :
    FS × String × List String × List AEvent :=
  let (p, ins) := resolvePermission perm inputs
  if permGranted p then
    (fsErase fs file, p, ins, [.permissionRequest kind file, .removeAttempt file])
  else
    (fs, p, ins, [.permissionRequest kind file])

/-- Characters stripped from candidate file names: `[<>:"/\!?*|]`. -/
def illegalChars : List Char :=
  [Char.ofNat 60, Char.ofNat 62, Char.ofNat 58, Char.ofNat 34, Char.ofNat 47,
   Char.ofNat 92, Char.ofNat 33, Char.ofNat 63, Char.ofNat 42, Char.ofNat 124]

/-- `re.subn(r'[<>:"/\\!?*|]*', '', name)[0]`: delete every illegal
character. -/
def sanitizeName (s : String) : String :=
  String.mk (s.data.filter fun c => !illegalChars.contains c)

/-- Split a path into the parent part (with its trailing separator) and
the final component, string-level model of `pathlib`. -/
def pathSplit (p : String) : String × String :=
  let name := ((p.data.reverse.takeWhile fun c => c ≠ '/').reverse)
  (String.mk (p.data.take (p.data.length - name.length)), String.mk name)

/-- `Path.suffix`: the extension of the final component including the dot
(empty when there is no proper extension). -/
def nameSuffix (name : List Char) : List Char :=
  let ext := name.reverse.takeWhile fun c => c ≠ '.'
  if 0 < ext.length && ext.length + 2 ≤ name.length then
    Char.ofNat 46 :: ext.reverse
  else []

/-- `_gen_new_file_name`: parent dir joined with the sanitized
`new_name + suffix`. -/
def gen_new_file_name (file : String) (newName : String) : String :=
  let pr := pathSplit file
  pr.1 ++ sanitizeName (newName ++ String.mk (nameSuffix pr.2.data))

/-- The rename-candidate resolution of `apply_tags` step c (lines 276-288):
`some target` (possibly the current path) or `none` when both candidates
collide with different existing files. -/
def resolveTarget (fs : FS) (f : String) (title artist : Option String) :
    Option String :=
  if truthyCell title && truthyCell artist then
    let t := title.getD ""
    let a := artist.getD ""
    let c1 := gen_new_file_name f t
    if c1 != f && fsExists fs c1 then
      let c2 := gen_new_file_name f (a ++ "-" ++ t)
      if c2 != f && fsExists fs c2 then none
      else some c2
    else some c1
  else some f

/-- Failure oracles for the external calls of the loop body. -/
structure ApplyOracle where
  renameFailPaths : List String
  savePermErrorPaths : List String
  saveOtherErrorPaths : List String
deriving DecidableEq

/-- The mutable state threaded through the per-record loop. -/
structure LoopSt where
  fs : FS
  permNotFound : Option String
  permRename : Option String
  permEdit : Option String
  inputs : List String
  toPop : List Nat
  aborted : Bool
deriving DecidableEq

/-- Steps e-f of the loop body: compare the stored tags with the new tag
dict; skip on equality, else clear, write and save (a permission failure
asks `remove_edit_error`, any other save failure aborts the loop). -/
def doTagWrite (oracle : ApplyOracle) (st : LoopSt) (i : Nat) (f : String)
    (nt : TagMap) : LoopSt × List AEvent :=
  if tagMapEq (fsTagsOf st.fs f) nt then (st, [])
  else
    let evs := [AEvent.clearedTags f, AEvent.wroteTags f nt]
    if oracle.saveOtherErrorPaths.contains f then
      ({ st with aborted := true }, evs ++ [.fatalError f])
    else if oracle.savePermErrorPaths.contains f then
      let r := remove_file_with_permission st.fs .editError f st.permEdit st.inputs
      ({ st with fs := r.1, permEdit := some r.2.1, inputs := r.2.2.1,
                 toPop := if permGranted r.2.1 then st.toPop ++ [i] else st.toPop },
       evs ++ [.saveFailed f] ++ r.2.2.2)
    else
      ({ st with fs := fsSetTags st.fs f nt }, evs)

/-- One iteration of the `apply_tags` record loop (record at position `i`).
Returns the state, the (possibly mutated) record left in the list, and the
events. -/
def processRecord (allowMisc : Bool) (oracle : ApplyOracle) (st : LoopSt)
    (i : Nat) (m : GRecord) : LoopSt × GRecord × List AEvent :=
  if st.aborted then (st, m, [])
  else if !fsExists st.fs m.file then
    let r := remove_file_with_permission st.fs .notFound m.file st.permNotFound st.inputs
    ({ st with fs := r.1, permNotFound := some r.2.1, inputs := r.2.2.1,
               toPop := if permGranted r.2.1 then st.toPop ++ [i] else st.toPop },
     m, r.2.2.2)
  else
    let m1 := if allowMisc then mergeMisc m else m
    match resolveTarget st.fs m1.file m1.title m1.artist with
    | none =>
      let r := remove_file_with_permission st.fs .renameError m1.file st.permRename st.inputs
      ({ st with fs := r.1, permRename := some r.2.1, inputs := r.2.2.1,
                 toPop := if permGranted r.2.1 then st.toPop ++ [i] else st.toPop },
       m1, r.2.2.2)
    | some t =>
      let step :=
        if t != m1.file then
          if oracle.renameFailPaths.contains m1.file then
            (st, m1, [AEvent.renameFailed m1.file t])
          else
            ({ st with fs := fsRename st.fs m1.file t }, { m1 with file := t },
             [AEvent.renamed m1.file t])
        else (st, m1, ([] : List AEvent))
      let st2 := step.1
      let m2 := step.2.1
      let r := doTagWrite oracle st2 i m2.file (newTagsRecord m2)
      (r.1, m2, step.2.2 ++ r.2)

/-- The whole record loop, positions counted from `i`. -/
def applyLoop (allowMisc : Bool) (oracle : ApplyOracle) :
    LoopSt → Nat → List GRecord → LoopSt × List GRecord × List AEvent
  | st, _, [] => (st, [], [])
  | st, i, m :: rest =>
    let r := processRecord allowMisc oracle st i m
    let rec2 := applyLoop allowMisc oracle r.1 (i + 1) rest
    (rec2.1, r.2.1 :: rec2.2.1, r.2.2 ++ rec2.2.2)

/-- Step 2 of `apply_tags`: every cataloged path missing from the record
set's `file` column is offered for deletion under `remove_deleted`. -/
def orphanPhase : FS → Option String → List String → List String →
    FS × Option String × List String × List AEvent
  | fs, perm, inputs, [] => (fs, perm, inputs, [])
  | fs, perm, inputs, f :: rest =>
    let r := remove_file_with_permission fs .deleted f perm inputs
    let r2 := orphanPhase r.1 (some r.2.1) r.2.2.1 rest
    (r2.1, r2.2.1, r2.2.2.1, r.2.2.2 ++ r2.2.2.2)

/-- Python `list.pop(i)`: remove the element at index `i`, `none` on an
`IndexError`. -/
def popAt (l : List α) (i : Nat) : Option (List α) :=
  if i < l.length then some (l.take i ++ l.drop (i + 1)) else none

/-- `for _id in to_pop: musics.pop(_id)` — sequential pops against the
shrinking list; an out-of-range index raises (`none`). -/
def popAll : List α → List Nat → Option (List α)
  | l, [] => some l
  | l, i :: rest =>
    match popAt l i with
    | some l2 => popAll l2 rest
    | none => none

/-- Everything `apply_tags` consumes: the reviewed record set, the fresh
catalog, the filesystem, the four initial permissions, the interactive
answer stream, the miscellaneous switch and the failure oracles. -/
structure ApplyInput where
  musics : List GRecord
  addrs : List String
  fs : FS
  permDeleted : Option String
  permNotFound : Option String
  permRenameError : Option String
  permEditError : Option String
  userInputs : List String
  allowMisc : Bool
  oracle : ApplyOracle
deriving DecidableEq

/-- `apply_tags`: orphan cleanup, the record loop, the pop loop, then the
review-flag reorder and persist.  The first component is the persisted
record set (`none` when the pop loop raises and nothing is persisted);
the second is the event trace. -/
def apply_tags (inp : ApplyInput) : Option (List GRecord) × List AEvent :=
  let fileSet := inp.musics.map fun m => m.file
  let orphans := inp.addrs.filter fun a => !fileSet.contains a
  let oph := orphanPhase inp.fs inp.permDeleted inp.userInputs orphans
  let st0 : LoopSt :=
    { fs := oph.1, permNotFound := inp.permNotFound,
      permRename := inp.permRenameError, permEdit := inp.permEditError,
      inputs := oph.2.2.1, toPop := [], aborted := false }
  let lp := applyLoop inp.allowMisc inp.oracle st0 0 inp.musics
  match popAll lp.2.1 lp.1.toPop with
  | some kept => (some (do_highlight kept), oph.2.2.2 ++ lp.2.2)
  | none => (none, oph.2.2.2 ++ lp.2.2)

/-- A record with only the `file` column set (a file with no readable
tags). -/
def blankRecord (f : String) : GRecord :=
  { file := f, title := none, artist := none, album := none, albumartist := none,
    genre := none, date := none, bpm := none, tracknumber := none,
    discnumber := none, originaldate := none, bitrate := none, length := none,
    miscellaneous := [], extras := [] }

/-- An oracle under which every external call succeeds. -/
def noFailOracle : ApplyOracle :=
  { renameFailPaths := [], savePermErrorPaths := [], saveOtherErrorPaths := [] }

/-- A three-record apply-phase input: the files of the first two records
are gone from disk, `remove_not_found` is pre-answered `ya`, the third
file exists with tags already equal to its record's new tag dict. -/
def c1Input : ApplyInput :=
  { musics := [blankRecord "a.mp3", blankRecord "b.mp3", blankRecord "c.mp3"],
    addrs := ["c.mp3"],
    fs := { paths := ["c.mp3"], tags := [] },
    permDeleted := none, permNotFound := some "ya", permRenameError := none,
    permEditError := none, userInputs := [], allowMisc := false,
    oracle := noFailOracle }

/-- A record carrying an `originaldate`. -/
def c4Record : GRecord :=
  { blankRecord "a.mp3" with originaldate := some "1999", date := some "2000" }

/-- A record whose file already stores exactly its new tag dict. -/
def c5Record : GRecord := { blankRecord "s.mp3" with title := some "T" }

/-- The loop state for the skip-write scenario. -/
def c5State : LoopSt :=
  { fs := { paths := ["s.mp3"], tags := [("s.mp3", [("title", ["T"])])] },
    permNotFound := none, permRename := none, permEdit := none,
    inputs := [], toPop := [], aborted := false }

/-- A filesystem on which `d/old.mp3` renames to `d/Song.mp3` without a
collision. -/
def c6FS : FS := { paths := ["d/old.mp3"], tags := [] }

/-- A record both of whose rename candidates collide with existing
files. -/
def c9Record : GRecord :=
  { blankRecord "r.mp3" with title := some "T", artist := some "A" }

/-- The loop state for the collision-removal scenario, removal
pre-granted. -/
def c9State : LoopSt :=
  { fs := { paths := ["r.mp3", "T.mp3", "A-T.mp3"], tags := [] },
    permNotFound := none, permRename := some "ya", permEdit := some "ya",
    inputs := [], toPop := [], aborted := false }

theorem crossValidate_tracknumber (m : GRecord) :
    (crossValidate m).tracknumber = m.tracknumber := by
  unfold crossValidate; split <;> rfl

theorem crossValidate_originaldate (m : GRecord) :
    (crossValidate m).originaldate = m.originaldate := by
  unfold crossValidate; split <;> rfl

theorem crossValidate_album_iff (m : GRecord) :
    ((crossValidate m).album = none ↔ (crossValidate m).albumartist = none) := by
  unfold crossValidate
  split
  · simp
  · next h =>
    simp only [Bool.or_eq_true, Option.isNone_iff_eq_none] at h
    push_neg at h
    exact ⟨fun ha => absurd ha h.1, fun ha => absurd ha h.2⟩

theorem stageTitle_tracknumber (m : GRecord) :
    (stageTitle m).tracknumber = m.tracknumber := rfl

theorem stageArtist_tracknumber (m : GRecord) :
    (stageArtist m).tracknumber = m.tracknumber := rfl

theorem stageAlbum_tracknumber (m : GRecord) :
    (stageAlbum m).tracknumber = m.tracknumber := rfl

theorem stageAlbumartist_tracknumber (m : GRecord) :
    (stageAlbumartist m).tracknumber = m.tracknumber := rfl

theorem stageGenre_tracknumber (m : GRecord) :
    (stageGenre m).tracknumber = m.tracknumber := rfl

theorem stageTrack_tracknumber (m : GRecord) :
    (stageTrack m).tracknumber =
      if cellIsNumeric (m.tracknumber.map (removeAllChar (Char.ofNat 47))) then m.tracknumber
      else none := rfl

theorem stageDisc_tracknumber (m : GRecord) :
    (stageDisc m).tracknumber = m.tracknumber := rfl

theorem stageDateNumeric_tracknumber (m : GRecord) :
    (stageDateNumeric m).tracknumber = m.tracknumber := rfl

theorem stageBpm_tracknumber (m : GRecord) :
    (stageBpm m).tracknumber = m.tracknumber := rfl

theorem stageDate_tracknumber (m : GRecord) :
    (stageDate m).tracknumber = m.tracknumber := rfl

theorem normalizeRec_tracknumber (m : GRecord) :
    (normalizeRec m).tracknumber =
      if cellIsNumeric (m.tracknumber.map (removeAllChar (Char.ofNat 47))) then m.tracknumber
      else none := by
  unfold normalizeRec
  rw [stageTitle_tracknumber, stageArtist_tracknumber, crossValidate_tracknumber,
    stageAlbum_tracknumber, stageAlbumartist_tracknumber, stageGenre_tracknumber,
    stageTrack_tracknumber, stageDisc_tracknumber, stageDateNumeric_tracknumber,
    stageBpm_tracknumber, stageDate_tracknumber]

theorem stageTitle_originaldate (m : GRecord) :
    (stageTitle m).originaldate = m.originaldate := rfl

theorem stageArtist_originaldate (m : GRecord) :
    (stageArtist m).originaldate = m.originaldate := rfl

theorem stageAlbum_originaldate (m : GRecord) :
    (stageAlbum m).originaldate = m.originaldate := rfl

theorem stageAlbumartist_originaldate (m : GRecord) :
    (stageAlbumartist m).originaldate = m.originaldate := rfl

theorem stageGenre_originaldate (m : GRecord) :
    (stageGenre m).originaldate = m.originaldate := rfl

theorem stageTrack_originaldate (m : GRecord) :
    (stageTrack m).originaldate = m.originaldate := rfl

theorem stageDisc_originaldate (m : GRecord) :
    (stageDisc m).originaldate = m.originaldate := rfl

theorem stageDateNumeric_originaldate (m : GRecord) :
    (stageDateNumeric m).originaldate = m.originaldate := rfl

theorem stageBpm_originaldate (m : GRecord) :
    (stageBpm m).originaldate = m.originaldate := rfl

theorem stageDate_originaldate (m : GRecord) :
    (stageDate m).originaldate = m.originaldate := rfl

theorem normalizeRec_originaldate (m : GRecord) :
    (normalizeRec m).originaldate = m.originaldate := by
  unfold normalizeRec
  rw [stageTitle_originaldate, stageArtist_originaldate, crossValidate_originaldate,
    stageAlbum_originaldate, stageAlbumartist_originaldate, stageGenre_originaldate,
    stageTrack_originaldate, stageDisc_originaldate, stageDateNumeric_originaldate,
    stageBpm_originaldate, stageDate_originaldate]

theorem stageTitle_album (m : GRecord) : (stageTitle m).album = m.album := rfl

theorem stageArtist_album (m : GRecord) : (stageArtist m).album = m.album := rfl

theorem stageTitle_albumartist (m : GRecord) :
    (stageTitle m).albumartist = m.albumartist := rfl

theorem stageArtist_albumartist (m : GRecord) :
    (stageArtist m).albumartist = m.albumartist := rfl

theorem normalizeRec_album_iff (m : GRecord) :
    ((normalizeRec m).album = none ↔ (normalizeRec m).albumartist = none) := by
  unfold normalizeRec
  rw [stageTitle_album, stageArtist_album, stageTitle_albumartist, stageArtist_albumartist]
  exact crossValidate_album_iff _

/-- C10: the catalog's extension filter is a raw lowercase-suffix test with
no dot separator required: a walked file is cataloged exactly when its
lowercased name ends with one of the listed extension strings, so
`trackmp3` (no dot) is cataloged as an audio file. -/
theorem c10_extension_filter_raw_suffix :
    (∀ (walked : List (String × String)) (addr : String),
        addr ∈ get_music_addrs walked ↔
          ∃ p, p ∈ walked ∧ isAudioFileName p.2 = true ∧ addr = p.1 ++ "/" ++ p.2) ∧
    (∀ f : String, isAudioFileName f = true ↔
        ∃ ext, ext ∈ audio_extensions ∧ strEndsWith (pyLower f) ext = true) ∧
    isAudioFileName "trackmp3" = true ∧ isAudioFileName "track.txt" = false := by
  refine ⟨fun walked addr => ?_, fun f => ?_, by decide, by decide⟩
  · unfold get_music_addrs
    simp only [List.mem_map, List.mem_filter]
    constructor
    · rintro ⟨p, ⟨hp, hf⟩, rfl⟩
      exact ⟨p, hp, hf, rfl⟩
    · rintro ⟨p, hp, hf, rfl⟩
      exact ⟨p, ⟨hp, hf⟩, rfl⟩
  · unfold isAudioFileName
    simp [List.any_eq_true]

/-- C8: `tracknumber` is kept exactly when the slash-stripped value is a
non-empty digit string, and nulled otherwise; `3/12` is preserved with its
slash, `A1` becomes null. -/
theorem c8_tracknumber_numeric_filter :
    (∀ m : GRecord,
        (normalizeRec m).tracknumber =
          match m.tracknumber with
          | some s =>
            if (removeAllChar (Char.ofNat 47) s).isEmpty = false ∧
               (removeAllChar (Char.ofNat 47) s).data.all Char.isDigit = true then some s
            else none
          | none => none) ∧
    (normalizeRec { blankRecord "x.mp3" with tracknumber := some "3/12" }).tracknumber =
      some "3/12" ∧
    (normalizeRec { blankRecord "x.mp3" with tracknumber := some "A1" }).tracknumber = none := by
  refine ⟨fun m => ?_, by decide, by decide⟩
  rw [normalizeRec_tracknumber]
  cases m.tracknumber with
  | none => rfl
  | some s =>
    simp only [Option.map_some, cellIsNumeric]
    by_cases h1 : (removeAllChar (Char.ofNat 47) s).isEmpty = false
    · by_cases h2 : (removeAllChar (Char.ofNat 47) s).data.all Char.isDigit = true
      · simp [h1, h2]
      · simp only [Bool.not_eq_true] at h2
        simp [h1, h2]
    · simp only [Bool.not_eq_false] at h1
      simp [h1]

/-- C4 (refuting the claim as stated): `originaldate` is not absent from
the persisted output — line 155 discards the result of
`DataFrame.drop`, so the column survives normalization and is written to
the reviewable table with its original value. -/
theorem c4_originaldate_persisted :
    (normalizeRec c4Record).originaldate = some "1999" ∧
    ("originaldate", some "1999") ∈ rowOf (normalizeRec c4Record) ∧
    (generate_music_info [c4Record]).map GRecord.originaldate = [some "1999"] := by
  refine ⟨by decide, by decide, by decide⟩
theorem dropAux (rows : List GRecord) :
    ∀ (n : Nat) (I : List Nat),
      (∀ j, n ≤ j → (I.contains j = true ↔
        ∃ p, p ∈ List.enumFrom n rows ∧ p.1 = j ∧ isHighlighted p.2 = true)) →
      ((List.enumFrom n rows).filter fun p => !(I.contains p.1)).map Prod.snd =
        rows.filter fun r => !isHighlighted r := by
  induction rows with
  | nil => intro n I _; simp
  | cons r rs ih =>
    intro n I hI
    have hcont : I.contains n = isHighlighted r := by
      cases h : isHighlighted r
      · cases hc : I.contains n
        · rfl
        · exfalso
          obtain ⟨p, hp, hpf, hph⟩ := (hI n (Nat.le_refl _)).mp hc
          rcases List.mem_cons.1 hp with rfl | hp2
          · rw [h] at hph; exact Bool.false_ne_true hph
          · have := List.le_fst_of_mem_enumFrom hp2
            omega
      · exact (hI n (Nat.le_refl _)).mpr ⟨(n, r), by simp, rfl, h⟩
    have hIH := ih (n + 1) I (by
      intro j hj
      rw [hI j (Nat.le_of_succ_le hj)]
      constructor
      · rintro ⟨p, hp, hpf, hph⟩
        rcases List.mem_cons.1 hp with rfl | hp2
        · omega
        · exact ⟨p, hp2, hpf, hph⟩
      · rintro ⟨p, hp, hpf, hph⟩
        exact ⟨p, List.mem_cons_of_mem _ hp, hpf, hph⟩)
    show (((n, r) :: List.enumFrom (n + 1) rs).filter fun p => !(I.contains p.1)).map
        Prod.snd = _
    rw [List.filter_cons]
    cases h : isHighlighted r
    · rw [h] at hcont
      simp only [hcont]
      rw [if_pos (by simp), List.map_cons, hIH, List.filter_cons_of_pos (by simp [h])]
    · rw [h] at hcont
      simp only [hcont]
      rw [if_neg (by simp), hIH, List.filter_cons_of_neg (by simp [h])]

theorem highlightedRows_spec (rows : List GRecord) (j : Nat) :
    ((highlightedRows rows).contains j = true ↔
      ∃ p, p ∈ List.enumFrom 0 rows ∧ p.1 = j ∧ isHighlighted p.2 = true) := by
  unfold highlightedRows
  rw [List.elem_iff]
  simp only [List.mem_map, List.mem_filter]
  constructor
  · rintro ⟨p, ⟨hp, hh⟩, rfl⟩
    exact ⟨p, hp, rfl, hh⟩
  · rintro ⟨p, hp, rfl, hh⟩
    exact ⟨p, ⟨hp, hh⟩, rfl⟩

theorem selAux (rows : List GRecord) :
    ∀ pre : List GRecord,
      selectRows (pre ++ rows)
        (((List.enumFrom pre.length rows).filter fun p => isHighlighted p.2).map Prod.fst) =
      rows.filter isHighlighted := by
  induction rows with
  | nil => intro pre; simp [selectRows]
  | cons r rs ih =>
    intro pre
    show selectRows (pre ++ r :: rs)
      ((((pre.length, r) :: List.enumFrom (pre.length + 1) rs).filter
        fun p => isHighlighted p.2).map Prod.fst) = _
    by_cases h : isHighlighted r
    · rw [List.filter_cons_of_pos (by simpa using h), List.map_cons,
        List.filter_cons_of_pos (by simpa using h)]
      unfold selectRows
      rw [List.filterMap_cons]
      have hget : (pre ++ r :: rs).get? pre.length = some r := by
        rw [List.get?_append_right (Nat.le_refl _)]
        simp
      rw [hget]
      have := ih (pre ++ [r])
      unfold selectRows at this
      simpa using this
    · rw [List.filter_cons_of_neg (by simpa using h),
        List.filter_cons_of_neg (by simpa using h)]
      have := ih (pre ++ [r])
      simpa using this
theorem do_highlight_eq (rows : List GRecord) :
    do_highlight rows =
      rows.filter isHighlighted ++ rows.filter fun r => !isHighlighted r := by
  unfold do_highlight dropRows
  congr 1
  · have := selAux rows []
    simpa [highlightedRows] using this
  · exact dropAux rows 0 (highlightedRows rows) (fun j _ => highlightedRows_spec rows j)


/-- C3: a record is highlighted exactly when its artist or title is null;
`_do_highlight` reorders every persisted record set into the highlighted
rows followed by the rest, each group a stable (order-preserving)
subsequence of the input. -/
theorem c3_highlight_partition :
    ∀ rows : List GRecord,
      do_highlight rows =
        rows.filter isHighlighted ++ rows.filter (fun r => !isHighlighted r) ∧
      (∀ m : GRecord, isHighlighted m = true ↔ (m.artist = none ∨ m.title = none)) ∧
      List.Sublist (rows.filter isHighlighted) rows ∧
      List.Sublist (rows.filter fun r => !isHighlighted r) rows ∧
      (∀ m ∈ rows.filter isHighlighted, isHighlighted m = true) ∧
      (∀ m ∈ rows.filter (fun r => !isHighlighted r), isHighlighted m = false) := by
  intro rows
  refine ⟨do_highlight_eq rows, ?_, List.filter_sublist _, List.filter_sublist _, ?_, ?_⟩
  · intro m
    simp [isHighlighted, Option.isNone_iff_eq_none]
  · intro m hm
    exact (List.mem_filter.1 hm).2
  · intro m hm
    simpa using (List.mem_filter.1 hm).2

/-- C2: every record in the output of a normalization run has
`album = null` exactly when `albumartist = null`. -/
theorem c2_album_albumartist_iff :
    ∀ (rows : List GRecord) (m : GRecord), m ∈ generate_music_info rows →
      (m.album = none ↔ m.albumartist = none) := by
  intro rows m hm
  unfold generate_music_info at hm
  rw [do_highlight_eq] at hm
  rcases List.mem_append.1 hm with h | h
  · obtain ⟨r, _, rfl⟩ := List.mem_map.1 (List.mem_of_mem_filter h)
    exact normalizeRec_album_iff r
  · obtain ⟨r, _, rfl⟩ := List.mem_map.1 (List.mem_of_mem_filter h)
    exact normalizeRec_album_iff r

theorem c2_album_albumartist_iff_witness :
    (blankRecord "x.mp3").album = none ↔ (blankRecord "x.mp3").albumartist = none :=
  c2_album_albumartist_iff [{ blankRecord "x.mp3" with album := some "A" }]
    (blankRecord "x.mp3") (by decide)

/-- C1 (refuting the claim as stated): the pop loop removes records by
stale indices against the shrinking list, so with two removals granted
(records 0 and 1), the persisted set keeps record 1 and drops record 2
instead: the persisted set is not the loaded set minus the granted
records. -/
theorem c1_pop_removes_wrong_records :
    (apply_tags c1Input).2 =
      [AEvent.permissionRequest PermKind.notFound "a.mp3", AEvent.removeAttempt "a.mp3",
       AEvent.permissionRequest PermKind.notFound "b.mp3", AEvent.removeAttempt "b.mp3"] ∧
    (apply_tags c1Input).1 = some [blankRecord "b.mp3"] ∧
    ([blankRecord "b.mp3"] : List GRecord) ≠ [blankRecord "c.mp3"] := by
  refine ⟨by decide, by decide, by decide⟩
theorem rfwp_split (fs : FS) (kind : PermKind) (file : String) (perm : Option String)
    (inputs : List String) :
    remove_file_with_permission fs kind file perm inputs =
      if permGranted (resolvePermission perm inputs).1 then
        (fsErase fs file, (resolvePermission perm inputs).1,
          (resolvePermission perm inputs).2,
          [AEvent.permissionRequest kind file, AEvent.removeAttempt file])
      else
        (fs, (resolvePermission perm inputs).1, (resolvePermission perm inputs).2,
          [AEvent.permissionRequest kind file]) := by
  rcases hres : resolvePermission perm inputs with ⟨p, ins⟩
  simp only [remove_file_with_permission, hres]

theorem processRecord_collision_removes (oracle : ApplyOracle) (st : LoopSt) (i : Nat)
    (m : GRecord) (ha : st.aborted = false) (hex : fsExists st.fs m.file = true)
    (hcol : resolveTarget st.fs m.file m.title m.artist = none)
    (hp : st.permRename = some "ya") :
    (processRecord false oracle st i m).1.fs = fsErase st.fs m.file ∧
    AEvent.removeAttempt m.file ∈ (processRecord false oracle st i m).2.2 ∧
    AEvent.permissionRequest PermKind.renameError m.file ∈
      (processRecord false oracle st i m).2.2 ∧
    (∀ a b, AEvent.renamed a b ∉ (processRecord false oracle st i m).2.2) := by
  have hr : remove_file_with_permission st.fs .renameError m.file st.permRename st.inputs =
      (fsErase st.fs m.file, "ya", st.inputs,
        [AEvent.permissionRequest .renameError m.file, AEvent.removeAttempt m.file]) := by
    rw [hp]; rfl
  unfold processRecord
  rw [ha, hex]
  simp only [Bool.not_true, Bool.false_eq_true, if_false, Bool.true_eq_false]
  simp only [hcol, hr]
  refine ⟨trivial, by simp, by simp, fun a b => by simp⟩

theorem processRecord_tag_write_cases (oracle : ApplyOracle) (st : LoopSt) (i : Nat) (m : GRecord)
    (ha : st.aborted = false) (hex : fsExists st.fs m.file = true)
    (hres : resolveTarget st.fs m.file m.title m.artist = some m.file) :
    (tagMapEq (fsTagsOf st.fs m.file) (newTagsRecord m) = true →
        processRecord false oracle st i m = (st, m, [])) ∧
    (tagMapEq (fsTagsOf st.fs m.file) (newTagsRecord m) = false →
        ∃ tl, (processRecord false oracle st i m).2.2 =
          AEvent.clearedTags m.file :: AEvent.wroteTags m.file (newTagsRecord m) :: tl) := by
  constructor
  · intro heq
    unfold processRecord
    rw [ha, hex]
    simp only [Bool.not_true, Bool.false_eq_true, if_false, Bool.true_eq_false]
    simp only [hres]
    simp only [bne_self_eq_false, if_false, Bool.false_eq_true]
    simp only [doTagWrite, heq, if_true]
    rfl
  · intro hne
    unfold processRecord
    rw [ha, hex]
    simp only [Bool.not_true, Bool.false_eq_true, if_false, Bool.true_eq_false]
    simp only [hres]
    simp only [bne_self_eq_false, if_false, Bool.false_eq_true]
    unfold doTagWrite
    rw [hne]
    simp only [Bool.false_eq_true, if_false]
    split
    · exact ⟨_, rfl⟩
    · split
      · exact ⟨_, rfl⟩
      · exact ⟨_, rfl⟩

theorem resolveTarget_cases (fs : FS) (f : String) (title artist : Option String)
    (ht : truthyCell title = true) (hart : truthyCell artist = true) :
    (resolveTarget fs f title artist = none ↔
      (gen_new_file_name f (title.getD "") ≠ f ∧
        fsExists fs (gen_new_file_name f (title.getD "")) = true) ∧
      (gen_new_file_name f (artist.getD "" ++ "-" ++ title.getD "") ≠ f ∧
        fsExists fs (gen_new_file_name f (artist.getD "" ++ "-" ++ title.getD "")) = true)) ∧
    (¬(gen_new_file_name f (title.getD "") ≠ f ∧
        fsExists fs (gen_new_file_name f (title.getD "")) = true) →
      resolveTarget fs f title artist = some (gen_new_file_name f (title.getD ""))) ∧
    ((gen_new_file_name f (title.getD "") ≠ f ∧
        fsExists fs (gen_new_file_name f (title.getD "")) = true) →
      ¬(gen_new_file_name f (artist.getD "" ++ "-" ++ title.getD "") ≠ f ∧
          fsExists fs (gen_new_file_name f (artist.getD "" ++ "-" ++ title.getD "")) = true) →
      resolveTarget fs f title artist =
        some (gen_new_file_name f (artist.getD "" ++ "-" ++ title.getD ""))) ∧
    (∀ t, resolveTarget fs f title artist = some t →
      t = gen_new_file_name f (title.getD "") ∨
      t = gen_new_file_name f (artist.getD "" ++ "-" ++ title.getD "")) := by
  unfold resolveTarget
  rw [ht, hart]
  simp only [Bool.and_self, if_true]
  set g1 := gen_new_file_name f (title.getD "") with hg1
  set g2 := gen_new_file_name f (artist.getD "" ++ "-" ++ title.getD "") with hg2
  by_cases h1 : g1 ≠ f ∧ fsExists fs g1 = true
  · have hb1 : (g1 != f && fsExists fs g1) = true := by
      simp [bne_iff_ne, h1.1, h1.2]
    rw [if_pos hb1]
    by_cases h2 : g2 ≠ f ∧ fsExists fs g2 = true
    · have hb2 : (g2 != f && fsExists fs g2) = true := by
        simp [bne_iff_ne, h2.1, h2.2]
      rw [if_pos hb2]
      exact ⟨⟨fun _ => ⟨h1, h2⟩, fun _ => rfl⟩, fun hn => absurd h1 hn,
        fun _ hn => absurd h2 hn, fun t hts => by cases hts⟩
    · have hb2 : ¬((g2 != f && fsExists fs g2) = true) := by
        intro hcc
        rw [Bool.and_eq_true, bne_iff_ne] at hcc
        exact h2 hcc
      rw [if_neg hb2]
      refine ⟨⟨fun hh => absurd hh (by simp), fun hh => absurd hh.2 h2⟩,
        fun hn => absurd h1 hn, fun _ _ => rfl, fun t hts => Or.inr (Option.some.inj hts).symm⟩
  · have hb1 : ¬((g1 != f && fsExists fs g1) = true) := by
      intro hcc
      rw [Bool.and_eq_true, bne_iff_ne] at hcc
      exact h1 hcc
    rw [if_neg hb1]
    refine ⟨⟨fun hh => absurd hh (by simp), fun hh => absurd hh.1 h1⟩,
      fun _ => rfl, fun hh => absurd hh h1, fun t hts => Or.inl (Option.some.inj hts).symm⟩

theorem doTagWrite_cases (oracle : ApplyOracle) (st : LoopSt) (i : Nat) (f : String)
    (nt : TagMap) :
    (tagMapEq (fsTagsOf st.fs f) nt = true → doTagWrite oracle st i f nt = (st, [])) ∧
    (tagMapEq (fsTagsOf st.fs f) nt = false →
      ∃ tl, (doTagWrite oracle st i f nt).2 =
        AEvent.clearedTags f :: AEvent.wroteTags f nt :: tl) := by
  constructor
  · intro heq
    unfold doTagWrite
    rw [heq]
    rfl
  · intro hne
    unfold doTagWrite
    rw [hne]
    simp only [Bool.false_eq_true, if_false]
    split
    · exact ⟨_, rfl⟩
    · split
      · exact ⟨_, rfl⟩
      · exact ⟨_, rfl⟩

/-- C5: whenever the computed new tag dict (all named fields except
`file`, `miscellaneous`, `bitrate`, `length`, omitting null/empty values)
equals the tags already stored on the file, the tag write step is skipped
entirely (state unchanged, no clear/write events); otherwise the existing
tags are cleared and the new set written.  Stated both for the tag-write
step itself (lines 298-314) and through the whole record iteration. -/
theorem c5_skip_write_when_tags_equal :
    (∀ (oracle : ApplyOracle) (st : LoopSt) (i : Nat) (f : String) (nt : TagMap),
      (tagMapEq (fsTagsOf st.fs f) nt = true → doTagWrite oracle st i f nt = (st, [])) ∧
      (tagMapEq (fsTagsOf st.fs f) nt = false →
        ∃ tl, (doTagWrite oracle st i f nt).2 =
          AEvent.clearedTags f :: AEvent.wroteTags f nt :: tl)) ∧
    (∀ (oracle : ApplyOracle) (st : LoopSt) (i : Nat) (m : GRecord),
      st.aborted = false → fsExists st.fs m.file = true →
      resolveTarget st.fs m.file m.title m.artist = some m.file →
      (tagMapEq (fsTagsOf st.fs m.file) (newTagsRecord m) = true →
          processRecord false oracle st i m = (st, m, [])) ∧
      (tagMapEq (fsTagsOf st.fs m.file) (newTagsRecord m) = false →
          ∃ tl, (processRecord false oracle st i m).2.2 =
            AEvent.clearedTags m.file :: AEvent.wroteTags m.file (newTagsRecord m) :: tl)) :=
  ⟨doTagWrite_cases, fun oracle st i m ha hex hres =>
    processRecord_tag_write_cases oracle st i m ha hex hres⟩

theorem c5_skip_write_when_tags_equal_witness :
    processRecord false noFailOracle c5State 0 c5Record = (c5State, c5Record, []) :=
  (c5_skip_write_when_tags_equal.2 noFailOracle c5State 0 c5Record (by decide) (by decide)
    (by decide)).1 (by decide)

/-- C6: with title and artist present, the first rename candidate comes
from the title alone; a collision with a different existing file triggers
the artist-title candidate; when that also collides with a different
existing file the resolution fails, no rename happens and the
`remove_rename_error` permission is requested — only these two candidates
are ever produced. -/
theorem c6_rename_two_candidates (fs : FS) (f : String) (title artist : Option String)
    (ht : truthyCell title = true) (hart : truthyCell artist = true) :
    (resolveTarget fs f title artist = none ↔
      (gen_new_file_name f (title.getD "") ≠ f ∧
        fsExists fs (gen_new_file_name f (title.getD "")) = true) ∧
      (gen_new_file_name f (artist.getD "" ++ "-" ++ title.getD "") ≠ f ∧
        fsExists fs (gen_new_file_name f (artist.getD "" ++ "-" ++ title.getD "")) = true)) ∧
    (¬(gen_new_file_name f (title.getD "") ≠ f ∧
        fsExists fs (gen_new_file_name f (title.getD "")) = true) →
      resolveTarget fs f title artist = some (gen_new_file_name f (title.getD ""))) ∧
    ((gen_new_file_name f (title.getD "") ≠ f ∧
        fsExists fs (gen_new_file_name f (title.getD "")) = true) →
      ¬(gen_new_file_name f (artist.getD "" ++ "-" ++ title.getD "") ≠ f ∧
          fsExists fs (gen_new_file_name f (artist.getD "" ++ "-" ++ title.getD "")) = true) →
      resolveTarget fs f title artist =
        some (gen_new_file_name f (artist.getD "" ++ "-" ++ title.getD ""))) ∧
    (∀ t, resolveTarget fs f title artist = some t →
      t = gen_new_file_name f (title.getD "") ∨
      t = gen_new_file_name f (artist.getD "" ++ "-" ++ title.getD "")) ∧
    (∀ (oracle : ApplyOracle) (st : LoopSt) (i : Nat) (m : GRecord),
      st.aborted = false → fsExists st.fs m.file = true →
      resolveTarget st.fs m.file m.title m.artist = none → st.permRename = some "ya" →
      AEvent.permissionRequest PermKind.renameError m.file ∈
        (processRecord false oracle st i m).2.2 ∧
      (∀ a b, AEvent.renamed a b ∉ (processRecord false oracle st i m).2.2)) := by
  obtain ⟨h1, h2, h3, h4⟩ := resolveTarget_cases fs f title artist ht hart
  refine ⟨h1, h2, h3, h4, ?_⟩
  intro oracle st i m ha hex hcol hp
  obtain ⟨_, _, hpr, hnr⟩ := processRecord_collision_removes oracle st i m ha hex hcol hp
  exact ⟨hpr, hnr⟩

theorem c6_rename_two_candidates_witness :
    resolveTarget c6FS "d/old.mp3" (some "Song") (some "Art") =
      some (gen_new_file_name "d/old.mp3" ((some "Song").getD "")) :=
  (c6_rename_two_candidates c6FS "d/old.mp3" (some "Song") (some "Art") (by decide)
    (by decide)).2.1 (by decide)

/-- C9: whenever one of the removal permissions resolves to a granted
answer, `_remove_file_with_permission` attempts `os.remove` on the named
file (and only then); in particular a granted `remove_rename_error` (on a
collision) or `remove_edit_error` (on a save permission failure) deletes
the still-existing audio file itself, not only the record. -/
theorem c9_granted_permission_deletes_file :
    (∀ (fs : FS) (kind : PermKind) (file : String) (perm : Option String)
        (inputs : List String),
        permGranted (remove_file_with_permission fs kind file perm inputs).2.1 = true →
        (remove_file_with_permission fs kind file perm inputs).1 = fsErase fs file ∧
        AEvent.removeAttempt file ∈
          (remove_file_with_permission fs kind file perm inputs).2.2.2) ∧
    (∀ (fs : FS) (kind : PermKind) (file : String) (perm : Option String)
        (inputs : List String),
        permGranted (remove_file_with_permission fs kind file perm inputs).2.1 = false →
        (remove_file_with_permission fs kind file perm inputs).1 = fs ∧
        AEvent.removeAttempt file ∉
          (remove_file_with_permission fs kind file perm inputs).2.2.2) ∧
    (∀ (oracle : ApplyOracle) (st : LoopSt) (i : Nat) (m : GRecord),
        st.aborted = false → fsExists st.fs m.file = true →
        resolveTarget st.fs m.file m.title m.artist = none → st.permRename = some "ya" →
        (processRecord false oracle st i m).1.fs = fsErase st.fs m.file ∧
        AEvent.removeAttempt m.file ∈ (processRecord false oracle st i m).2.2) ∧
    (∀ (oracle : ApplyOracle) (st : LoopSt) (i : Nat) (f : String) (nt : TagMap),
        tagMapEq (fsTagsOf st.fs f) nt = false →
        oracle.saveOtherErrorPaths.contains f = false →
        oracle.savePermErrorPaths.contains f = true →
        st.permEdit = some "ya" →
        (doTagWrite oracle st i f nt).1.fs = fsErase st.fs f ∧
        AEvent.removeAttempt f ∈ (doTagWrite oracle st i f nt).2) := by
  have hperm_eq : ∀ (fs : FS) (kind : PermKind) (file : String) (perm : Option String)
      (inputs : List String),
      (remove_file_with_permission fs kind file perm inputs).2.1 =
        (resolvePermission perm inputs).1 := by
    intro fs kind file perm inputs
    rw [rfwp_split]
    split <;> rfl
  refine ⟨?_, ?_, ?_, ?_⟩
  · intro fs kind file perm inputs hg
    rw [hperm_eq] at hg
    rw [rfwp_split, if_pos hg]
    exact ⟨rfl, by simp⟩
  · intro fs kind file perm inputs hg
    rw [hperm_eq] at hg
    rw [rfwp_split, if_neg (by simp [hg])]
    exact ⟨rfl, by simp⟩
  · intro oracle st i m ha hex hcol hp
    obtain ⟨hfs, hra, _, _⟩ := processRecord_collision_removes oracle st i m ha hex hcol hp
    exact ⟨hfs, hra⟩
  · intro oracle st i f nt hne hother hperm hp
    have hr : remove_file_with_permission st.fs .editError f st.permEdit st.inputs =
        (fsErase st.fs f, "ya", st.inputs,
          [AEvent.permissionRequest .editError f, AEvent.removeAttempt f]) := by
      rw [hp]; rfl
    unfold doTagWrite
    rw [hne]
    simp only [Bool.false_eq_true, if_false]
    rw [hother, hperm]
    simp only [Bool.false_eq_true, if_false, if_true, hr]
    exact ⟨by simp, by simp⟩

theorem c9_granted_permission_deletes_file_witness :
    ((remove_file_with_permission c5State.fs PermKind.editError "s.mp3" (some "ya") []).1 =
      fsErase c5State.fs "s.mp3" ∧
     AEvent.removeAttempt "s.mp3" ∈
      (remove_file_with_permission c5State.fs PermKind.editError "s.mp3" (some "ya") []).2.2.2) ∧
    ((processRecord false noFailOracle c9State 0 c9Record).1.fs =
      fsErase c9State.fs c9Record.file ∧
     AEvent.removeAttempt c9Record.file ∈
      (processRecord false noFailOracle c9State 0 c9Record).2.2) :=
  ⟨c9_granted_permission_deletes_file.1 c5State.fs PermKind.editError "s.mp3" (some "ya") []
    (by decide),
   c9_granted_permission_deletes_file.2.2.1 noFailOracle c9State 0 c9Record (by decide)
    (by decide) (by decide) (by decide)⟩

theorem takeWhile_get (p : Char → Bool) :
    ∀ (l : List Char) (j : Nat), j < (l.takeWhile p).length →
      ∃ c, l.get? j = some c ∧ p c = true := by
  intro l
  induction l with
  | nil => intro j h; simp at h
  | cons a t ih =>
    intro j h
    by_cases hp : p a
    · rw [List.takeWhile_cons_of_pos hp] at h
      cases j with
      | zero => exact ⟨a, rfl, hp⟩
      | succ j2 =>
        simp only [List.length_cons, Nat.succ_lt_succ_iff] at h
        exact ih j2 h
    · rw [List.takeWhile_cons_of_neg hp] at h
      simp at h
  
theorem le_takeWhile_len (p : Char → Bool) :
    ∀ (l : List Char) (m : Nat),
      (∀ j, j < m → ∃ c, l.get? j = some c ∧ p c = true) →
      m ≤ (l.takeWhile p).length := by
  intro l
  induction l with
  | nil =>
    intro m hm
    cases m with
    | zero => exact Nat.le_refl _
    | succ m2 =>
      obtain ⟨c, hc, _⟩ := hm 0 (Nat.succ_pos _)
      simp at hc
  | cons a t ih =>
    intro m hm
    cases m with
    | zero => exact Nat.zero_le _
    | succ m2 =>
      obtain ⟨c, hc, hp⟩ := hm 0 (Nat.succ_pos _)
      simp only [List.get?_cons_zero, Option.some_inj] at hc
      subst hc
      rw [List.takeWhile_cons_of_pos hp]
      simp only [List.length_cons, Nat.succ_le_succ_iff]
      exact ih m2 (fun j hj => hm (j + 1) (Nat.succ_lt_succ hj))

theorem takeWhile_isPre (p : Char → Bool) (l : List Char) : l.takeWhile p <+: l :=
  List.takeWhile_prefix p

theorem take_isPre (n : Nat) (l : List Char) : l.take n <+: l :=
  List.take_prefix n l

theorem get_eq_of_pre :
    ∀ (l v : List Char), l <+: v → ∀ j, j < l.length → v.get? j = l.get? j := by
  intro l v hlv j hj
  obtain ⟨rest, rfl⟩ := hlv
  rw [List.get?_append hj]

theorem ciLit_suffix :
    ∀ (t s r : List Char), ciLit t s = some r → r <:+ s := by
  intro t
  induction t with
  | nil =>
    intro s r h
    simp only [ciLit, Option.some_inj] at h
    subst h
    exact List.suffix_refl _
  | cons c cs ih =>
    intro s r h
    cases s with
    | nil => simp [ciLit] at h
    | cons x xs =>
      simp only [ciLit] at h
      split at h
      · exact (ih xs r h).trans (List.suffix_cons x xs)
      · cases h

theorem ciLit_length :
    ∀ (t s r : List Char), ciLit t s = some r → r.length + t.length = s.length := by
  intro t
  induction t with
  | nil =>
    intro s r h
    simp only [ciLit, Option.some_inj] at h
    subst h
    simp
  | cons c cs ih =>
    intro s r h
    cases s with
    | nil => simp [ciLit] at h
    | cons x xs =>
      simp only [ciLit] at h
      split at h
      · have := ih xs r h
        simp only [List.length_cons]
        omega
      · cases h

theorem ciLit_chars :
    ∀ (t s r : List Char), ciLit t s = some r →
      ∀ j, j < t.length → ∃ c c0, s.get? j = some c ∧ t.get? j = some c0 ∧ c.toLower = c0 := by
  intro t
  induction t with
  | nil => intro s r _ j hj; simp at hj
  | cons c cs ih =>
    intro s r h j hj
    cases s with
    | nil => simp [ciLit] at h
    | cons x xs =>
      simp only [ciLit] at h
      split at h
      · next heq =>
        cases j with
        | zero => exact ⟨x, c, rfl, rfl, heq⟩
        | succ j2 =>
          simp only [List.length_cons, Nat.succ_lt_succ_iff] at hj
          obtain ⟨c2, c0, h1, h2, h3⟩ := ih xs r h j2 hj
          exact ⟨c2, c0, h1, h2, h3⟩
      · cases h

theorem ciLit_isSome_of_chars :
    ∀ (t s : List Char),
      (∀ j, j < t.length →
        ∃ c c0, s.get? j = some c ∧ t.get? j = some c0 ∧ c.toLower = c0) →
      (ciLit t s).isSome := by
  intro t
  induction t with
  | nil => intro s _; simp [ciLit]
  | cons c cs ih =>
    intro s hm
    obtain ⟨x, c0, hx, hc0, hlow⟩ := hm 0 (Nat.succ_pos _)
    simp only [List.get?_cons_zero, Option.some_inj] at hc0
    subst hc0
    cases s with
    | nil => simp at hx
    | cons y ys =>
      simp only [List.get?_cons_zero, Option.some_inj] at hx
      subst hx
      simp only [ciLit, hlow, if_pos]
      exact ih ys (fun j hj => by
        obtain ⟨c2, c02, h1, h2, h3⟩ := hm (j + 1) (Nat.succ_lt_succ hj)
        exact ⟨c2, c02, h1, h2, h3⟩)

theorem firstSome_eq_some {α β : Type} (l : List α) (f : α → Option β) (b : β) :
    firstSome l f = some b → ∃ a, a ∈ l ∧ f a = some b := by
  induction l with
  | nil => intro h; simp [firstSome] at h
  | cons a t ih =>
    intro h
    simp only [firstSome] at h
    cases hfa : f a with
    | some b2 =>
      rw [hfa] at h
      simp only [Option.some_inj] at h
      exact ⟨a, by simp, by rw [hfa, h]⟩
    | none =>
      rw [hfa] at h
      obtain ⟨a2, ha2, hf2⟩ := ih h
      exact ⟨a2, List.mem_cons_of_mem _ ha2, hf2⟩

theorem firstSome_isSome_of_mem {α β : Type} (l : List α) (f : α → Option β) (a : α) :
    a ∈ l → (f a).isSome → (firstSome l f).isSome := by
  induction l with
  | nil => intro h; simp at h
  | cons x t ih =>
    intro ha hfa
    simp only [firstSome]
    cases hfx : f x with
    | some b => simp
    | none =>
      rcases List.mem_cons.1 ha with rfl | ha2
      · rw [hfx] at hfa; simp at hfa
      · exact ih ha2 hfa

theorem mem_labelRems_self (s : List Char) : s ∈ labelRems s := by
  unfold labelRems
  simp

theorem wsOpts_suffix (r x : List Char) : x ∈ wsOpts r → x <:+ r := by
  intro h
  cases r with
  | nil =>
    simp [wsOpts] at h
    subst h
    exact List.suffix_refl _
  | cons c cs =>
    have h2 : x ∈ (if wsChar c = true then [cs, c :: cs] else [c :: cs]) := h
    by_cases hw : wsChar c = true
    · rw [if_pos hw] at h2
      rcases List.mem_cons.1 h2 with rfl | h3
      · exact List.suffix_cons _ _
      · simp at h3
        subst h3
        exact List.suffix_refl _
    · rw [if_neg hw] at h2
      simp at h2
      subst h2
      exact List.suffix_refl _

theorem labelRems_suffix (s x : List Char) : x ∈ labelRems s → x <:+ s := by
  unfold labelRems
  intro h
  simp only [List.mem_append, List.mem_flatMap, List.mem_singleton] at h
  rcases h with (⟨r, hr, hx⟩ | ⟨r, hr, hx⟩) | rfl
  · have hrs : r <:+ s := by
      rcases hr with h1 | h1
      · cases htg : ciLit "telegram".data s with
        | some r2 =>
          rw [htg] at h1
          exact (wsOpts_suffix r2 r h1).trans (ciLit_suffix _ _ _ htg)
        | none => rw [htg] at h1; simp at h1
      · subst h1; exact List.suffix_refl _
    have hxr : x <:+ r := by
      rcases hx with h1 | h1
      · cases hch : ciLit "channel".data r with
        | some r2 =>
          rw [hch] at h1
          simp at h1
          subst h1
          exact ciLit_suffix _ _ _ hch
        | none => rw [hch] at h1; simp at h1
      · subst h1; exact List.suffix_refl _
    exact hxr.trans hrs
  · have hrs : r <:+ s := by
      rcases hr with h1 | h1
      · cases htg : ciLit "کانال".data s with
        | some r2 =>
          rw [htg] at h1
          exact (wsOpts_suffix r2 r h1).trans (ciLit_suffix _ _ _ htg)
        | none => rw [htg] at h1; simp at h1
      · subst h1; exact List.suffix_refl _
    have hxr : x <:+ r := by
      cases hch : ciLit "تلگرام".data r with
      | some r2 =>
        rw [hch] at hx
        simp at hx
        subst hx
        exact ciLit_suffix _ _ _ hch
      | none => rw [hch] at hx; simp at hx
    exact hxr.trans hrs
  · exact List.suffix_refl _

theorem mem_noiseRems_self (s : List Char) : s ∈ noiseRems s := by
  unfold noiseRems
  refine List.mem_map.2 ⟨noiseRun s, List.mem_range.2 (Nat.lt_succ_self _), ?_⟩
  simp

theorem noiseRems_suffix (s x : List Char) : x ∈ noiseRems s → x <:+ s := by
  unfold noiseRems
  intro h
  obtain ⟨j, _, rfl⟩ := List.mem_map.1 h
  exact List.drop_suffix _ _

theorem domTry_eq_some (s : List Char) :
    ∀ (n : Nat) (r : List Char), domTry s n = some r →
      ∃ k, 1 ≤ k ∧ k ≤ n ∧ checkDot s k = some r := by
  intro n
  induction n with
  | zero => intro r h; simp [domTry] at h
  | succ n2 ih =>
    intro r h
    simp only [domTry] at h
    cases hcd : checkDot s (n2 + 1) with
    | some r2 =>
      rw [hcd] at h
      simp only [Option.some_inj] at h
      subst h
      exact ⟨n2 + 1, Nat.succ_le_succ (Nat.zero_le _), Nat.le_refl _, hcd⟩
    | none =>
      rw [hcd] at h
      obtain ⟨k, h1, h2, h3⟩ := ih r h
      exact ⟨k, h1, Nat.le_succ_of_le h2, h3⟩

theorem domTry_isSome_of (s : List Char) :
    ∀ (n k : Nat), 1 ≤ k → k ≤ n → (checkDot s k).isSome → (domTry s n).isSome := by
  intro n
  induction n with
  | zero => intro k h1 h2 _; omega
  | succ n2 ih =>
    intro k h1 h2 h3
    simp only [domTry]
    cases hcd : checkDot s (n2 + 1) with
    | some r2 => simp
    | none =>
      rcases Nat.lt_or_ge k (n2 + 1) with hk | hk
      · exact ih k h1 (Nat.lt_succ_iff.1 hk) h3
      · have : k = n2 + 1 := Nat.le_antisymm h2 hk
        subst this
        rw [hcd] at h3
        simp at h3

theorem checkDot_inv (s : List Char) (k : Nat) (r : List Char) :
    checkDot s k = some r →
      ∃ rest, s.drop k = Char.ofNat 46 :: rest ∧
        ∃ t, t ∈ tldList ∧ ∃ r2, ciLit t rest = some r2 ∧ r = r2.drop (tailRun r2) := by
  intro h
  unfold checkDot at h
  cases hd : s.drop k with
  | nil => rw [hd] at h; cases h
  | cons c rest =>
    rw [hd] at h
    have h2 : (if c = Char.ofNat 46 then
        Option.map (fun r => List.drop (tailRun r) r) (firstSome tldList fun t => ciLit t rest)
      else none) = some r := h
    by_cases hc : c = Char.ofNat 46
    · rw [if_pos hc] at h2
      subst hc
      cases hfs : firstSome tldList fun t => ciLit t rest with
      | none => rw [hfs] at h2; cases h2
      | some r2 =>
        rw [hfs] at h2
        simp only [Option.map_some', Option.some_inj] at h2
        obtain ⟨t, ht, hci⟩ := firstSome_eq_some _ _ _ hfs
        exact ⟨rest, rfl, t, ht, r2, hci, h2.symm⟩
    · rw [if_neg hc] at h2
      cases h2

theorem checkDot_isSome_of (s : List Char) (k : Nat) (rest : List Char)
    (hd : s.drop k = Char.ofNat 46 :: rest) (t : List Char) (ht : t ∈ tldList)
    (hci : (ciLit t rest).isSome) : (checkDot s k).isSome := by
  unfold checkDot
  rw [hd]
  show (if Char.ofNat 46 = Char.ofNat 46 then
      Option.map (fun r => List.drop (tailRun r) r) (firstSome tldList fun t2 => ciLit t2 rest)
    else none).isSome = true
  rw [if_pos rfl]
  cases hfs : firstSome tldList fun t2 => ciLit t2 rest with
  | some r2 => simp
  | none =>
    exfalso
    have := firstSome_isSome_of_mem tldList (fun t2 => ciLit t2 rest) t ht hci
    rw [hfs] at this
    simp at this

theorem coreParse_cases (s : List Char) (r : List Char) :
    coreParse s = some r →
      (∃ k, 1 ≤ k ∧ k ≤ min (tokenRun s) 256 ∧ checkDot s k = some r) ∨
        handleTry s = some r := by
  intro h
  unfold coreParse at h
  cases hdt : domTry s (min (tokenRun s) 256) with
  | some r2 =>
    rw [hdt] at h
    simp only [Option.some_inj] at h
    subst h
    exact Or.inl (domTry_eq_some _ _ _ hdt)
  | none =>
    rw [hdt] at h
    exact Or.inr h

theorem coreParse_isSome_of_dom (s : List Char) (k : Nat) (h1 : 1 ≤ k)
    (h2 : k ≤ min (tokenRun s) 256) (h3 : (checkDot s k).isSome) :
    (coreParse s).isSome := by
  unfold coreParse
  cases hdt : domTry s (min (tokenRun s) 256) with
  | some r2 => simp
  | none =>
    exfalso
    have := domTry_isSome_of s (min (tokenRun s) 256) k h1 h2 h3
    rw [hdt] at this
    simp at this

theorem coreParse_isSome_of_handle (s : List Char) (h : (handleTry s).isSome) :
    (coreParse s).isSome := by
  unfold coreParse
  cases hdt : domTry s (min (tokenRun s) 256) with
  | some r2 => simp
  | none => exact h

theorem coreParse_nil : coreParse [] = none := rfl

theorem coreParse_space (u : List Char) : coreParse (spaceChar :: u) = none := by
  unfold coreParse
  have htr : tokenRun (spaceChar :: u) = 0 := by
    unfold tokenRun
    rw [List.takeWhile_cons_of_neg (by decide)]
    rfl
  rw [htr]
  simp only [Nat.min_eq_left (Nat.zero_le _), Nat.zero_min]
  show (if spaceChar = Char.ofNat 64 then
      (if 1 ≤ min (tailRun u) 256 then some (u.drop (min (tailRun u) 256)) else none)
    else none) = none
  rw [if_neg (by decide)]

theorem handleTry_inv (s r : List Char) :
    handleTry s = some r →
      ∃ rest, s = Char.ofNat 64 :: rest ∧ 1 ≤ min (tailRun rest) 256 ∧
        r = rest.drop (min (tailRun rest) 256) := by
  intro h
  cases s with
  | nil => cases h
  | cons c rest =>
    have h2 : (if c = Char.ofNat 64 then
        (if 1 ≤ min (tailRun rest) 256 then some (rest.drop (min (tailRun rest) 256)) else none)
      else none) = some r := h
    by_cases hc : c = Char.ofNat 64
    · rw [if_pos hc] at h2
      subst hc
      by_cases hm : 1 ≤ min (tailRun rest) 256
      · rw [if_pos hm] at h2
        simp only [Option.some_inj] at h2
        exact ⟨rest, rfl, hm, h2.symm⟩
      · rw [if_neg hm] at h2
        cases h2
    · rw [if_neg hc] at h2
      cases h2

theorem tld_length_pos : ∀ t ∈ tldList, 1 ≤ t.length := by decide

theorem coreParse_shrink (s r : List Char) :
    coreParse s = some r → r.length < s.length := by
  intro h
  rcases coreParse_cases s r h with ⟨k, hk1, _, hcd⟩ | hh
  · obtain ⟨rest, hd, t, ht, r2, hci, hr⟩ := checkDot_inv s k r hcd
    have hlen : r2.length + t.length = rest.length := ciLit_length t rest r2 hci
    have htl : 1 ≤ t.length := tld_length_pos t ht
    have hr_len : r.length ≤ r2.length := by
      subst hr
      rw [List.length_drop]
      omega
    have hdl : (s.drop k).length = s.length - k := List.length_drop k s
    rw [hd] at hdl
    simp only [List.length_cons] at hdl
    omega
  · obtain ⟨rest, hs, hm, hr⟩ := handleTry_inv s r hh
    subst hs
    have htw : tailRun rest ≤ rest.length := by
      unfold tailRun
      exact (takeWhile_isPre _ _).length_le
    subst hr
    rw [List.length_drop]
    simp only [List.length_cons]
    omega

theorem coreParse_suffix (s r : List Char) :
    coreParse s = some r → r <:+ s := by
  intro h
  rcases coreParse_cases s r h with ⟨k, _, _, hcd⟩ | hh
  · obtain ⟨rest, hd, t, ht, r2, hci, hr⟩ := checkDot_inv s k r hcd
    have h1 : r <:+ r2 := hr ▸ List.drop_suffix _ _
    have h2 : r2 <:+ rest := ciLit_suffix t rest r2 hci
    have h3 : rest <:+ s.drop k := hd ▸ List.suffix_cons _ _
    exact ((h1.trans h2).trans h3).trans (List.drop_suffix _ _)
  · obtain ⟨rest, hs, _, hr⟩ := handleTry_inv s r hh
    subst hs
    exact (hr ▸ List.drop_suffix _ _).trans (List.suffix_cons _ _)

theorem matchAt_core (s r : List Char) :
    matchAt s = some r → ∃ i, (coreParse (s.drop i)).isSome := by
  intro h
  unfold matchAt at h
  obtain ⟨s1, hs1, h2⟩ := firstSome_eq_some _ _ _ h
  obtain ⟨s2, hs2, h3⟩ := firstSome_eq_some _ _ _ h2
  obtain ⟨s3, hcp, _⟩ := Option.map_eq_some'.1 h3
  have hsuf : s2 <:+ s := (noiseRems_suffix s1 s2 hs2).trans (labelRems_suffix s s1 hs1)
  obtain ⟨pre, hpre⟩ := hsuf
  refine ⟨pre.length, ?_⟩
  rw [← hpre, List.drop_left]
  simp [hcp]

theorem matchAt_isSome_of_core (s : List Char) (h : (coreParse s).isSome) :
    (matchAt s).isSome := by
  unfold matchAt
  refine firstSome_isSome_of_mem _ _ s (mem_labelRems_self s) ?_
  refine firstSome_isSome_of_mem _ _ s (mem_noiseRems_self s) ?_
  rw [Option.isSome_map']
  exact h

theorem matchAt_shrink (s r : List Char) :
    matchAt s = some r → r.length < s.length := by
  intro h
  unfold matchAt at h
  obtain ⟨s1, hs1, h2⟩ := firstSome_eq_some _ _ _ h
  obtain ⟨s2, hs2, h3⟩ := firstSome_eq_some _ _ _ h2
  obtain ⟨s3, hcp, hr⟩ := Option.map_eq_some'.1 h3
  have l1 : s1.length ≤ s.length := (labelRems_suffix s s1 hs1).length_le
  have l2 : s2.length ≤ s1.length := (noiseRems_suffix s1 s2 hs2).length_le
  have l3 : s3.length < s2.length := coreParse_shrink s2 s3 hcp
  have l4 : r.length ≤ s3.length := by
    rw [← hr, List.length_drop]
    omega
  omega

theorem tokenClass_ne_space (c : Char) (h : tokenClass c = true) : c ≠ spaceChar := by
  intro hc
  subst hc
  exact absurd h (by decide)

theorem tailClass_ne_space (c : Char) (h : tailClass c = true) : c ≠ spaceChar := by
  intro hc
  subst hc
  exact absurd h (by decide)

theorem tld_chars_ne_space : ∀ t ∈ tldList, ∀ c0 ∈ t, c0 ≠ spaceChar := by decide

theorem toLower_ne_space (c c0 : Char) (h : c.toLower = c0) (h0 : c0 ≠ spaceChar) :
    c ≠ spaceChar := by
  intro hc
  subst hc
  exact h0 (by rw [← h]; decide)

theorem drop_eq_cons_of_get? :
    ∀ (l : List Char) (n : Nat) (c : Char), l.get? n = some c →
      l.drop n = c :: l.drop (n + 1) := by
  intro l
  induction l with
  | nil => intro n c h; simp at h
  | cons x xs ih =>
    intro n c h
    cases n with
    | zero =>
      simp only [List.get?_cons_zero, Option.some_inj] at h
      subst h
      simp
    | succ n2 =>
      simp only [List.get?_cons_succ] at h
      simp only [List.drop_succ_cons]
      exact ih n2 c h

theorem mem_of_get? : ∀ (l : List Char) (n : Nat) (c : Char), l.get? n = some c → c ∈ l := by
  intro l n c h
  exact List.get?_mem h

theorem coreParse_transfer (u v : List Char) (h : (coreParse u).isSome)
    (hpre : (u.takeWhile fun c => c != spaceChar) <+: v) :
    (coreParse v).isSome := by
  have hagree : ∀ j, j < (u.takeWhile fun c => c != spaceChar).length →
      v.get? j = u.get? j := by
    intro j hj
    rw [get_eq_of_pre _ v hpre j hj,
      ← get_eq_of_pre _ u (takeWhile_isPre _ _) j hj]
  obtain ⟨r, hr⟩ := Option.isSome_iff_exists.1 h
  rcases coreParse_cases u r hr with ⟨k, hk1, hk2, hcd⟩ | hh
  · -- domain alternative
    obtain ⟨rest, hd, t, ht, r2, hci, _⟩ := checkDot_inv u k r hcd
    have hktok : k ≤ tokenRun u := le_trans hk2 (Nat.min_le_left _ _)
    have hk256 : k ≤ 256 := le_trans hk2 (Nat.min_le_right _ _)
    have f1 : ∀ j, j < k → ∃ c, u.get? j = some c ∧ tokenClass c = true := by
      intro j hj
      exact takeWhile_get tokenClass u j (lt_of_lt_of_le hj hktok)
    have f2 : u.get? k = some (Char.ofNat 46) := by
      have : (u.drop k).get? 0 = u.get? (k + 0) := List.get?_drop u k 0
      rw [hd] at this
      simpa using this.symm
    have f3 : ∀ j, j < t.length → ∃ c c0, u.get? (k + 1 + j) = some c ∧
        t.get? j = some c0 ∧ c.toLower = c0 := by
      intro j hj
      obtain ⟨c, c0, hc, hc0, hl⟩ := ciLit_chars t rest r2 hci j hj
      refine ⟨c, c0, ?_, hc0, hl⟩
      have hrg : rest.get? j = (u.drop k).get? (j + 1) := by rw [hd]; simp
      rw [hrg, List.get?_drop] at hc
      rw [show k + 1 + j = k + (j + 1) by omega]
      exact hc
    have hns : ∀ j, j < k + 1 + t.length →
        ∃ c, u.get? j = some c ∧ (c != spaceChar) = true := by
      intro j hj
      rcases Nat.lt_or_ge j k with hjk | hjk
      · obtain ⟨c, hc, htok⟩ := f1 j hjk
        exact ⟨c, hc, bne_iff_ne.2 (tokenClass_ne_space c htok)⟩
      · rcases Nat.eq_or_lt_of_le hjk with rfl | hjk2
        · exact ⟨Char.ofNat 46, f2, by decide⟩
        · have hj2 : j - (k + 1) < t.length := by omega
          obtain ⟨c, c0, hc, hc0, hl⟩ := f3 (j - (k + 1)) hj2
          rw [show k + 1 + (j - (k + 1)) = j by omega] at hc
          have hc0mem : c0 ∈ t := mem_of_get? t _ c0 hc0
          exact ⟨c, hc, bne_iff_ne.2
            (toLower_ne_space c c0 hl (tld_chars_ne_space t ht c0 hc0mem))⟩
    have hL : k + 1 + t.length ≤ (u.takeWhile fun c => c != spaceChar).length :=
      le_takeWhile_len _ u _ hns
    have hagree2 : ∀ j, j < k + 1 + t.length → v.get? j = u.get? j := by
      intro j hj
      exact hagree j (lt_of_lt_of_le hj hL)
    have v1 : ∀ j, j < k → ∃ c, v.get? j = some c ∧ tokenClass c = true := by
      intro j hj
      obtain ⟨c, hc, htok⟩ := f1 j hj
      exact ⟨c, (hagree2 j (by omega)).trans hc, htok⟩
    have hvtok : k ≤ tokenRun v := le_takeWhile_len tokenClass v k v1
    have hvk : v.get? k = some (Char.ofNat 46) := by
      rw [hagree2 k (by omega)]
      exact f2
    have hvdrop : v.drop k = Char.ofNat 46 :: v.drop (k + 1) :=
      drop_eq_cons_of_get? v k _ hvk
    have hvci : (ciLit t (v.drop (k + 1))).isSome := by
      apply ciLit_isSome_of_chars
      intro j hj
      obtain ⟨c, c0, hc, hc0, hl⟩ := f3 j hj
      refine ⟨c, c0, ?_, hc0, hl⟩
      rw [List.get?_drop]
      rw [show k + 1 + j = k + 1 + j from rfl]
      rw [hagree2 (k + 1 + j) (by omega)]
      exact hc
    exact coreParse_isSome_of_dom v k hk1 (le_min hvtok hk256)
      (checkDot_isSome_of v k (v.drop (k + 1)) hvdrop t ht hvci)
  · -- handle alternative
    obtain ⟨rest, hs, hm, _⟩ := handleTry_inv u r hh
    have htr : 1 ≤ tailRun rest := le_trans hm (Nat.min_le_left _ _)
    obtain ⟨c, hc, htc⟩ := takeWhile_get tailClass rest 0 (by
      unfold tailRun at htr
      omega)
    have hu0 : u.get? 0 = some (Char.ofNat 64) := by rw [hs]; rfl
    have hu1 : u.get? 1 = some c := by rw [hs]; simpa using hc
    have hns : ∀ j, j < 2 → ∃ ch, u.get? j = some ch ∧ (ch != spaceChar) = true := by
      intro j hj
      interval_cases j
      · exact ⟨Char.ofNat 64, hu0, by decide⟩
      · exact ⟨c, hu1, bne_iff_ne.2 (tailClass_ne_space c htc)⟩
    have hL : 2 ≤ (u.takeWhile fun c => c != spaceChar).length :=
      le_takeWhile_len _ u 2 hns
    have hv0 : v.get? 0 = some (Char.ofNat 64) := by
      rw [hagree 0 (by omega)]
      exact hu0
    have hv1 : v.get? 1 = some c := by
      rw [hagree 1 (by omega)]
      exact hu1
    have hvshape : v = Char.ofNat 64 :: v.drop 1 := by
      have := drop_eq_cons_of_get? v 0 _ hv0
      simpa using this
    have hvd : (v.drop 1).get? 0 = some c := by
      rw [List.get?_drop]
      exact hv1
    have hvtr : 1 ≤ tailRun (v.drop 1) := by
      apply le_takeWhile_len
      intro j hj
      interval_cases j
      exact ⟨c, hvd, htc⟩
    apply coreParse_isSome_of_handle
    rw [hvshape]
    show (if Char.ofNat 64 = Char.ofNat 64 then
        (if 1 ≤ min (tailRun (v.drop 1)) 256 then
          some ((v.drop 1).drop (min (tailRun (v.drop 1)) 256)) else none)
      else none).isSome = true
    rw [if_pos rfl, if_pos (le_min hvtr (by omega))]
    rfl

theorem subF_length_le : ∀ (n : Nat) (s : List Char), (subF n s).length ≤ s.length := by
  intro n
  induction n with
  | zero => intro s; exact Nat.le_refl _
  | succ n2 ih =>
    intro s
    simp only [subF]
    cases hm : matchAt s with
    | some r =>
      have := matchAt_shrink s r hm
      have := ih r
      simp only [List.length_cons]
      omega
    | none =>
      cases s with
      | nil => simp
      | cons c cs =>
        have := ih cs
        simp only [List.length_cons]
        omega

theorem subF_get_agree :
    ∀ (n : Nat) (s : List Char) (i : Nat), s.length ≤ n →
      (∀ j, j ≤ i → (subF n s).get? j ≠ some spaceChar) →
      (subF n s).get? i = s.get? i := by
  intro n
  induction n with
  | zero => intro s i _ _; rfl
  | succ n2 ih =>
    intro s i hlen hsp
    simp only [subF] at hsp ⊢
    cases hm : matchAt s with
    | some r =>
      rw [hm] at hsp
      exfalso
      exact (by simpa using hsp 0 (Nat.zero_le i) : False)
    | none =>
      rw [hm] at hsp
      cases s with
      | nil => rfl
      | cons c cs =>
        cases i with
        | zero => rfl
        | succ i2 =>
          simp only [List.get?_cons_succ]
          refine ih cs i2 (by simpa using hlen) ?_
          intro j hj
          exact hsp (j + 1) (Nat.succ_le_succ hj)

theorem noCore_subF :
    ∀ (n : Nat) (s : List Char), s.length ≤ n →
      ∀ i, coreParse ((subF n s).drop i) = none := by
  intro n
  induction n with
  | zero =>
    intro s hlen i
    have : s = [] := List.length_eq_zero.1 (Nat.le_zero.1 hlen)
    subst this
    simp [subF, coreParse_nil]
  | succ n2 ih =>
    intro s hlen i
    simp only [subF]
    cases hm : matchAt s with
    | some r =>
      have hr : r.length ≤ n2 := by
        have := matchAt_shrink s r hm
        omega
      cases i with
      | zero => exact coreParse_space _
      | succ i2 => simpa using ih r hr i2
    | none =>
      cases s with
      | nil => simp [coreParse_nil]
      | cons c cs =>
        have hcs : cs.length ≤ n2 := by simpa using hlen
        cases i with
        | succ i2 => simpa using ih cs hcs i2
        | zero =>
          simp only [List.drop_zero]
          by_contra hne
          have hsome : (coreParse (c :: subF n2 cs)).isSome := by
            cases hcc : coreParse (c :: subF n2 cs) with
            | none => exact absurd hcc hne
            | some r2 => simp
          -- transfer the core from the output back to the input c :: cs
          have htrans : (coreParse (c :: cs)).isSome := by
            apply coreParse_transfer (c :: subF n2 cs) (c :: cs) hsome
            -- the non-space prefix of c :: subF n2 cs is a prefix of c :: cs
            set u := c :: subF n2 cs with hu
            set L := (u.takeWhile fun ch => ch != spaceChar).length with hL
            have hsub_le : (subF n2 cs).length ≤ cs.length := subF_length_le n2 cs
            have hLu : L ≤ u.length := by
              rw [hL]
              exact (takeWhile_isPre _ _).length_le
            have hLv : L ≤ (c :: cs).length := by
              simp only [List.length_cons]
              rw [hu] at hLu
              simp only [List.length_cons] at hLu
              omega
            have hagree : ∀ j, j < L → (c :: cs).get? j = u.get? j := by
              intro j hj
              have hnosp : ∀ j2, j2 ≤ j → u.get? j2 ≠ some spaceChar := by
                intro j2 hj2
                obtain ⟨ch, hch, hbne⟩ :=
                  takeWhile_get (fun ch => ch != spaceChar) u j2 (by omega)
                rw [hch]
                intro hcon
                rw [Option.some_inj] at hcon
                subst hcon
                simp at hbne
              cases j with
              | zero => rfl
              | succ j2 =>
                have hside : ∀ j3, j3 ≤ j2 → (subF n2 cs).get? j3 ≠ some spaceChar := by
                  intro j3 hj3
                  have := hnosp (j3 + 1) (Nat.succ_le_succ hj3)
                  rw [hu] at this
                  simpa using this
                rw [hu]
                simp only [List.get?_cons_succ]
                rw [subF_get_agree n2 cs j2 hcs hside]
            -- now build the prefix
            have htk : (u.takeWhile fun ch => ch != spaceChar) = (c :: cs).take L := by
              apply List.ext_get?
              intro j
              by_cases hj : j < L
              · rw [List.get?_take hj]
                rw [hagree j hj]
                rw [get_eq_of_pre _ u (takeWhile_isPre _ _) j (by rw [← hL]; exact hj)]
              · have h1 : ((u.takeWhile fun ch => ch != spaceChar)).get? j = none := by
                  apply List.get?_eq_none.2
                  rw [← hL]
                  omega
                have h2 : ((c :: cs).take L).get? j = none := by
                  apply List.get?_eq_none.2
                  rw [List.length_take]
                  omega
                rw [h1, h2]
            rw [htk]
            exact take_isPre _ _
          have := matchAt_isSome_of_core (c :: cs) htrans
          rw [hm] at this
          simp at this

theorem subF_eq_self :
    ∀ (n : Nat) (s : List Char), s.length ≤ n →
      (∀ i, coreParse (s.drop i) = none) → subF n s = s := by
  intro n
  induction n with
  | zero =>
    intro s hlen _
    rfl
  | succ n2 ih =>
    intro s hlen hnc
    simp only [subF]
    cases hm : matchAt s with
    | some r =>
      exfalso
      obtain ⟨i, hi⟩ := matchAt_core s r hm
      rw [hnc i] at hi
      simp at hi
    | none =>
      cases s with
      | nil => rfl
      | cons c cs =>
        show c :: subF n2 cs = c :: cs
        have : subF n2 cs = cs := by
          refine ih cs (by simpa using hlen) ?_
          intro i
          have := hnc (i + 1)
          simpa using this
        rw [this]

theorem dropWhile_head_not (p : Char → Bool) :
    ∀ l : List Char, (l.dropWhile p = []) ∨
      ∃ c cs, l.dropWhile p = c :: cs ∧ p c = false := by
  intro l
  induction l with
  | nil => exact Or.inl rfl
  | cons a t ih =>
    by_cases hp : p a = true
    · rw [List.dropWhile_cons_of_pos hp]
      exact ih
    · rw [List.dropWhile_cons_of_neg hp]
      exact Or.inr ⟨a, t, rfl, by simpa using hp⟩

theorem dropWhile_eq_self_of_head (p : Char → Bool) (c : Char) (cs : List Char)
    (h : p c = false) : (c :: cs).dropWhile p = c :: cs :=
  List.dropWhile_cons_of_neg (by simp [h])

theorem strip_decomp (l : List Char) : ∃ a b, l = a ++ pyStrip l ++ b := by
  unfold pyStrip
  refine ⟨l.takeWhile wsChar, ((l.dropWhile wsChar).reverse.takeWhile wsChar).reverse, ?_⟩
  have h1 : l = l.takeWhile wsChar ++ l.dropWhile wsChar :=
    (List.takeWhile_append_dropWhile wsChar l).symm
  have h2 : (l.dropWhile wsChar).reverse =
      (l.dropWhile wsChar).reverse.takeWhile wsChar ++
        (l.dropWhile wsChar).reverse.dropWhile wsChar :=
    (List.takeWhile_append_dropWhile wsChar _).symm
  have h3 : l.dropWhile wsChar =
      ((l.dropWhile wsChar).reverse.dropWhile wsChar).reverse ++
        ((l.dropWhile wsChar).reverse.takeWhile wsChar).reverse := by
    have := congrArg List.reverse h2
    rw [List.reverse_reverse, List.reverse_append] at this
    exact this
  calc l = l.takeWhile wsChar ++ l.dropWhile wsChar := h1
    _ = l.takeWhile wsChar ++
        (((l.dropWhile wsChar).reverse.dropWhile wsChar).reverse ++
          ((l.dropWhile wsChar).reverse.takeWhile wsChar).reverse) := by rw [← h3]
    _ = l.takeWhile wsChar ++
        ((l.dropWhile wsChar).reverse.dropWhile wsChar).reverse ++
        ((l.dropWhile wsChar).reverse.takeWhile wsChar).reverse := by
          rw [List.append_assoc]

theorem getLast?_of_suffix (t s : List Char) (h : t <:+ s) (hne : t ≠ []) :
    t.getLast? = s.getLast? := by
  obtain ⟨pre, rfl⟩ := h
  rw [List.getLast?_append_of_ne_nil]
  exact hne

theorem pyStrip_idem (l : List Char) : pyStrip (pyStrip l) = pyStrip l := by
  unfold pyStrip
  set u := l.dropWhile wsChar with hu
  set v := u.reverse.dropWhile wsChar with hv
  -- claim A: dropWhile ws (v.reverse) = v.reverse
  have claimA : v.reverse.dropWhile wsChar = v.reverse := by
    cases hvr : v.reverse with
    | nil => rfl
    | cons c cs =>
      apply dropWhile_eq_self_of_head
      -- c is the last element of v, which is the head of u
      have hvne : v ≠ [] := by
        intro hcon
        rw [hcon] at hvr
        simp at hvr
      have hlast : v.getLast? = u.reverse.getLast? :=
        getLast?_of_suffix v u.reverse (List.dropWhile_suffix _) hvne
      have hlast2 : u.reverse.getLast? = u.head? := by
        rw [List.getLast?_reverse]
      have hhead : v.getLast? = some c := by
        rw [← List.head?_reverse, hvr]
        rfl
      have huh : u.head? = some c := by
        rw [← hlast2, ← hlast, hhead]
      -- head of u = dropWhile ws l is not ws
      rcases dropWhile_head_not wsChar l with h1 | ⟨c2, cs2, h2, h3⟩
      · rw [← hu] at h1
        rw [h1] at huh
        simp at huh
      · rw [← hu] at h2
        rw [h2] at huh
        simp only [List.head?_cons, Option.some_inj] at huh
        subst huh
        exact h3
  have claimB : v.dropWhile wsChar = v := by
    cases hvc : v with
    | nil => rfl
    | cons c cs =>
      apply dropWhile_eq_self_of_head
      rcases dropWhile_head_not wsChar u.reverse with h1 | ⟨c2, cs2, h2, h3⟩
      · rw [← hv] at h1
        rw [h1] at hvc
        cases hvc
      · rw [← hv] at h2
        rw [h2] at hvc
        cases hvc
        exact h3
  rw [claimA, List.reverse_reverse, claimB]

theorem noCore_pyStrip_reSub (s : List Char) :
    ∀ i, coreParse ((pyStrip (reSub s)).drop i) = none := by
  have hbig : ∀ i, coreParse ((reSub s).drop i) = none :=
    noCore_subF s.length s (Nat.le_refl _)
  set P := pyStrip (reSub s) with hP
  obtain ⟨a, b, hab⟩ := strip_decomp (reSub s)
  rw [← hP] at hab
  intro i
  by_cases hi : i ≤ P.length
  · by_contra hne
    have hsome : (coreParse (P.drop i)).isSome := by
      cases hcc : coreParse (P.drop i) with
      | none => exact absurd hcc hne
      | some r2 => simp
    have htrans : (coreParse (P.drop i ++ b)).isSome := by
      apply coreParse_transfer _ _ hsome
      exact (takeWhile_isPre _ _).trans (List.prefix_append _ _)
    have heq : (reSub s).drop (a.length + i) = P.drop i ++ b := by
      rw [hab, List.append_assoc]
      rw [← List.drop_drop]
      rw [List.drop_left]
      exact List.drop_append_of_le_length hi
    rw [← heq] at htrans
    rw [hbig (a.length + i)] at htrans
    simp at htrans
  · have : P.drop i = [] := by
      apply List.drop_eq_nil_of_le
      omega
    rw [this, coreParse_nil]

/-- C7: the ad-text stripping of `remove_websites_and_tags` is idempotent:
stripping an already-stripped value changes nothing, including the rule
that an all-stripped empty result becomes null. -/
theorem c7_remove_websites_and_tags_idempotent :
    ∀ x : Option String,
      remove_websites_and_tags (remove_websites_and_tags x) = remove_websites_and_tags x := by
  intro x
  cases x with
  | none => rfl
  | some s =>
    by_cases hemp : (pyStrip (reSub s.data)).isEmpty
    · have hinner : remove_websites_and_tags (some s) = none := by
        show (if (pyStrip (reSub s.data)).isEmpty then none
          else some (String.mk (pyStrip (reSub s.data)))) = none
        rw [if_pos hemp]
      rw [hinner]
      rfl
    · have hinner : remove_websites_and_tags (some s) =
          some (String.mk (pyStrip (reSub s.data))) := by
        show (if (pyStrip (reSub s.data)).isEmpty then none
          else some (String.mk (pyStrip (reSub s.data)))) = _
        rw [if_neg hemp]
      rw [hinner]
      show (if (pyStrip (reSub (pyStrip (reSub s.data)))).isEmpty then none
        else some (String.mk (pyStrip (reSub (pyStrip (reSub s.data)))))) = _
      have hsubt : reSub (pyStrip (reSub s.data)) = pyStrip (reSub s.data) :=
        subF_eq_self _ _ (Nat.le_refl _) (noCore_pyStrip_reSub s.data)
      rw [hsubt, pyStrip_idem, if_neg hemp]
